import Mathlib

/-!
Verification of the Connect Four rule engine (`src/game.rs`, `src/bitvec.rs`).

The Rust sources are shallowly embedded: machine integers (`u8`, `u64`,
`usize`) become `Nat` (all arithmetic in the engine is bounds-checked before
any overflow could occur, as argued at each definition), `&mut self` methods
become state-passing functions returning the new state, fallible methods
return `Except ErrorCode`, and panicking preconditions (assertions,
`unreachable!`) are modelled by total functions whose behaviour outside the
caller-guaranteed domain is irrelevant junk (noted at each definition).
Strings are modelled as `List Char`.
-/

set_option linter.unusedVariables false

/-- The two recoverable error kinds of the engine (`mirabel::error::ErrorCode`
variants used by the game code). Error message strings are not modelled; the
spec only distinguishes error kinds. -/
inductive ErrorCode where
  | InvalidInput
  | InvalidOptions
deriving DecidableEq

instance {ε α : Type} [DecidableEq ε] [DecidableEq α] : DecidableEq (Except ε α) := fun a b =>
  match a, b with
  | .ok x, .ok y => if h : x = y then isTrue (by rw [h]) else isFalse (by intro hh; cases hh; exact h rfl)
  | .error x, .error y => if h : x = y then isTrue (by rw [h]) else isFalse (by intro hh; cases hh; exact h rfl)
  | .ok _, .error _ => isFalse (by intro hh; cases hh)
  | .error _, .ok _ => isFalse (by intro hh; cases hh)

/-! ### Character helpers (Rust `char`/`str` methods used by the engine) -/

/-- Rust `char::is_whitespace`: the Unicode `White_Space` code points. -/
def rustIsWhitespace (c : Char) : Bool :=
  [0x09, 0x0A, 0x0B, 0x0C, 0x0D, 0x20, 0x85, 0xA0, 0x1680,
   0x2000, 0x2001, 0x2002, 0x2003, 0x2004, 0x2005, 0x2006, 0x2007,
   0x2008, 0x2009, 0x200A, 0x2028, 0x2029, 0x202F, 0x205F, 0x3000].contains c.toNat

/-- Rust `str::trim_start` on the character list. -/
def trimStartC (cs : List Char) : List Char := cs.dropWhile rustIsWhitespace

/-- Rust `str::trim` on the character list. -/
def trimC (cs : List Char) : List Char :=
  ((cs.dropWhile rustIsWhitespace).reverse.dropWhile rustIsWhitespace).reverse

/-- ASCII lower-casing of a code point (Rust `u8::to_ascii_lowercase`):
`A`..`Z` (65..90) is shifted by 32, everything else is unchanged. -/
def lowerN (n : Nat) : Nat := if 65 ≤ n ∧ n ≤ 90 then n + 32 else n

/-- Rust `char::eq_ignore_ascii_case`. -/
def eqIgnoreAsciiCaseC (a b : Char) : Bool := lowerN a.toNat = lowerN b.toNat

/-- Rust `str::eq_ignore_ascii_case` (pointwise ASCII-case-insensitive
equality; equivalent to byte equality after ASCII lowering since ASCII
lowering only touches single-byte code points). -/
def eqIgnoreAsciiCaseS (a b : List Char) : Bool :=
  a.map (fun c => lowerN c.toNat) = b.map (fun c => lowerN c.toNat)

/-- Rust `char::is_uppercase` restricted to ASCII. In `import_state` this is
only ever evaluated on trailer strings that are ASCII-case-insensitively equal
to `"X"` or `"O"` or equal to `"-"` (the error branch fires first otherwise),
i.e. on the characters `X x O o -`, where the Unicode `Uppercase` property
coincides with the ASCII range test. -/
def rustIsUppercase (c : Char) : Bool := 65 ≤ c.toNat ∧ c.toNat ≤ 90

/-! ### Decimal numbers (Rust `u8: FromStr` and `u8: Display`) -/

/-- The value of a list of ASCII digits, most significant first
(the accumulation performed by Rust's integer `FromStr`). -/
def toDec (s : List Char) : Nat := s.foldl (fun a c => 10 * a + (c.toNat - 48)) 0

/-- Rust `u8::from_str`: an optional leading `+`, then a nonempty run of
ASCII digits; errors on anything else and on values not fitting `u8`
(Rust detects overflow during accumulation, which rejects exactly the
all-digit strings whose value is ≥ 256). -/
def parseU8 (s : List Char) : Option Nat :=
  let digits := if s.head? = some '+' then s.tail else s
  if digits.isEmpty then none
  else if digits.all Char.isDigit then
    if toDec digits < 256 then some (toDec digits) else none
  else none

/-- The ASCII digit for `d < 10` (junk `*` otherwise; callers pass `n % 10`). -/
def digitC (d : Nat) : Char :=
  match d with
  | 0 => '0' | 1 => '1' | 2 => '2' | 3 => '3' | 4 => '4'
  | 5 => '5' | 6 => '6' | 7 => '7' | 8 => '8' | 9 => '9'
  | _ => '*'

/-- Rust's `Display` for `u8`: decimal, no sign, no leading zeros. A `u8`
value has at most three digits, so the three cases cover the whole domain
(`width`, `height`, and `length` are `u8` in the source). -/
def natToChars (n : Nat) : List Char :=
  if n < 10 then [digitC n]
  else if n < 100 then [digitC (n / 10), digitC (n % 10)]
  else [digitC (n / 100), digitC (n / 10 % 10), digitC (n % 10)]

/-- Rust `str::split` with the pattern `|c| !c.is_ascii_digit()`: every
non-digit character is a separator, and `k` consecutive separators produce
`k - 1` empty pieces between them. The result is always nonempty. -/
def splitNonDigit : List Char → List (List Char)
  | [] => [[]]
  | c :: rest =>
    if c.isDigit then
      match splitNonDigit rest with
      | t :: ts => (c :: t) :: ts
      | [] => [[c]]
    else [] :: splitNonDigit rest

/-! ### Packed bit storage (`src/bitvec.rs`) -/

/-- Value of `usize::BITS` on the 64-bit platforms the plugin targets (the source
statically rejects 16-bit targets). -/
def BITS : Nat := 64

/-- Ceiling division (`bitvec.rs::div_ceil`). -/
def divCeil (dividend divisor : Nat) : Nat :=
  dividend / divisor + (if dividend % divisor ≠ 0 then 1 else 0)

/-- Rust `BitVec` from `bitvec.rs`: a bit vector on a `Vec<usize>`. Each word is a
`Nat` that the operations keep below `2 ^ BITS`. -/
structure BVec where
  data : List Nat
  length : Nat
deriving DecidableEq

/-- Rust `BitVec::new`. -/
def BVec.new (length : Nat) : BVec :=
  { data := List.replicate (divCeil length BITS) 0, length := length }

/-- The raw storage bit at position `i`: bit `i % BITS` of word `i / BITS`
(reading past the storage yields `false`). This is `BitVec`'s `Index` impl
without its `index < length` assertion, which all engine callers satisfy. -/
def BVec.get (v : BVec) (i : Nat) : Bool := (v.data.getD (i / BITS) 0).testBit (i % BITS)

/-- Rust `BitVec::set`. The source asserts `index < self.length`; every engine
caller passes an in-range index (out of range, this model leaves the vector
unchanged because `List.set` past the end is the identity). -/
def BVec.set (v : BVec) (i : Nat) (value : Bool) : BVec :=
  let mask := 1 <<< (i % BITS)
  let w := v.data.getD (i / BITS) 0
  let w' := if value then w ||| mask else w &&& ((2 ^ BITS - 1) ^^^ mask)
  { data := v.data.set (i / BITS) w', length := v.length }

/-- Rust `BitVec::copy_from_bitvec`. The source asserts equal lengths and copies
the word slice. -/
def BVec.copyFromBitvec (v other : BVec) : BVec :=
  { data := other.data, length := v.length }

/-- Rust `BitVec::reset`: fill the storage with zeros. -/
def BVec.reset (v : BVec) : BVec :=
  { data := v.data.map (fun _ => 0), length := v.length }

/-- Rust `BitVec::any`. -/
def BVec.any (v : BVec) : Bool := v.data.any (fun c => c ≠ 0)

/-- The invariant documented on `BitVec::data`: "Unused bits are always
zero" — every storage bit at position `≥ length` is zero. -/
def BVec.Inv (v : BVec) : Prop := ∀ j, v.length ≤ j → v.get j = false

/-! ### Game data model (`src/game.rs`) -/

/-- Rust `game.rs::Pos`: column × row. -/
abbrev Pos := Nat × Nat

/-- The state of a single field of the game board (`game.rs::State`). -/
inductive State where
  | Empty
  | X
  | O
deriving DecidableEq

/-- Rust `State::from_player_id`. The source panics for ids other than 1 or 2
(`unreachable!`); the `Empty` fallback here is junk never reached by the
engine's callers. -/
def State.from_player_id (player : Nat) : State :=
  match player with
  | 1 => .X
  | 2 => .O
  | _ => .Empty

/-- Rust `game.rs::Direction`: compass directions on the board, north is up
(row + 1) and east is right (column + 1). -/
inductive Direction where
  | N | NE | E | SE | S | SW | W | NW
deriving DecidableEq

/-- Rust `Direction::walk`: the next position from `pos` in direction `self`,
`none` when it would leave `[0,width) × [0,height)`. Checked subtraction
(`checked_sub`) on the `u8` coordinates becomes an explicit zero test. The
`u8` increments cannot overflow for the positions the engine walks from:
a coordinate is only incremented after it was strictly below `width` resp.
`height`, both of which fit `u8`. -/
def Direction.walk (d : Direction) (pos : Pos) (width height : Nat) : Option Pos :=
  match d with
  | .N => if pos.2 + 1 ≥ height then none else some (pos.1, pos.2 + 1)
  | .NE => if pos.1 + 1 ≥ width ∨ pos.2 + 1 ≥ height then none else some (pos.1 + 1, pos.2 + 1)
  | .E => if pos.1 + 1 ≥ width then none else some (pos.1 + 1, pos.2)
  | .SE => if pos.2 = 0 then none else if pos.1 + 1 ≥ width then none else some (pos.1 + 1, pos.2 - 1)
  | .S => if pos.2 = 0 then none else some (pos.1, pos.2 - 1)
  | .SW => if pos.1 = 0 ∨ pos.2 = 0 then none else some (pos.1 - 1, pos.2 - 1)
  | .W => if pos.1 = 0 then none else some (pos.1 - 1, pos.2)
  | .NW => if pos.1 = 0 then none else if pos.2 + 1 ≥ height then none else some (pos.1 - 1, pos.2 + 1)

/-- Rust `Direction::inv`: the opposite direction. -/
def Direction.inv (d : Direction) : Direction :=
  match d with
  | .N => .S
  | .NE => .SW
  | .E => .W
  | .SE => .NW
  | .S => .N
  | .SW => .NE
  | .W => .E
  | .NW => .SE

/-- Rust `Direction::half`: one half of the available directions. -/
def Direction.half : List Direction := [.N, .NE, .E, .SE]

/-- Rust `game.rs::GameOptions`. -/
structure GameOptions where
  width : Nat
  height : Nat
  length : Nat
deriving DecidableEq

/-- Rust `Default for GameOptions`: the classic 7 × 6 board with 4 in a row. -/
def GameOptions.default : GameOptions := { width := 7, height := 6, length := 4 }

/-- Possible states of the game (`game.rs::GameResult`). -/
inductive GameResult where
  | Ongoing
  | Winner
  | Draw
deriving DecidableEq

/-- Rust `GameResult::is_over`. -/
def GameResult.is_over (r : GameResult) : Bool := r ≠ .Ongoing

/-- Rust `game.rs::GameData`: board storage plus turn (`false` → `X`,
`true` → `O`) and result. -/
structure GameData where
  board : BVec
  turn : Bool
  result : GameResult
deriving DecidableEq

/-- Rust `GameData::new`. -/
def GameData.new (options : GameOptions) : GameData :=
  { board := BVec.new (2 * options.width * options.height)
    turn := false
    result := .Ongoing }

/-- Rust `GameData::copy_from`. -/
def GameData.copy_from (d other : GameData) : GameData :=
  { board := d.board.copyFromBitvec other.board
    turn := other.turn
    result := other.result }

/-- Rust `GameData::reset`. -/
def GameData.reset (d : GameData) : GameData :=
  { board := d.board.reset, turn := false, result := .Ongoing }

/-- Rust `game.rs::ConnectFour`: options plus game state. -/
structure ConnectFour where
  options : GameOptions
  data : GameData
deriving DecidableEq

/-- Rust `ConnectFour::idx`: the `BitVec` index of the first of the two bits of
`pos` (column-major, two bits per cell). -/
def ConnectFour.idx (g : ConnectFour) (pos : Pos) : Nat :=
  2 * (pos.1 * g.options.height + pos.2)

/-- Replace the board storage, leaving everything else unchanged. -/
def ConnectFour.setBoard (g : ConnectFour) (b : BVec) : ConnectFour :=
  { g with data := { g.data with board := b } }

/-- Rust `ConnectFour::set`: write `state` at `pos`. `Empty` clears the occupied
bit (the owner bit is left as is); otherwise the occupied bit is set and the
owner bit selects the player. -/
def ConnectFour.set (g : ConnectFour) (pos : Pos) (state : State) : ConnectFour :=
  match state with
  | .Empty => g.setBoard (g.data.board.set (g.idx pos) false)
  | .X => g.setBoard ((g.data.board.set (g.idx pos) true).set (g.idx pos + 1) false)
  | .O => g.setBoard ((g.data.board.set (g.idx pos) true).set (g.idx pos + 1) true)

/-- The `Index<Pos>` impl of `ConnectFour`: decode the two bits at `pos`. -/
def ConnectFour.cellAt (g : ConnectFour) (pos : Pos) : State :=
  if ¬ g.data.board.get (g.idx pos) then .Empty
  else if ¬ g.data.board.get (g.idx pos + 1) then .X
  else .O

/-- The positions visited by `DirectionIter` starting at `pos`: `pos` itself,
then repeated `walk` steps until `walk` returns `None`. The fuel only serves
termination; `width + height + 2` strictly exceeds the number of cells on any
ray through the board, so for the in-bounds starting positions the engine
uses, the fuel never runs out (proved where needed). -/
def walkPosFuel (d : Direction) (width height : Nat) : Nat → Pos → List Pos
  | 0, _ => []
  | fuel + 1, pos =>
    pos :: (match d.walk pos width height with
            | none => []
            | some next => walkPosFuel d width height fuel next)

/-- Rust `ConnectFour::iter`: the sequence of cell states encountered while
walking from `pos` in `direction` (including `pos` itself). -/
def ConnectFour.iter (g : ConnectFour) (pos : Pos) (direction : Direction) : List State :=
  (walkPosFuel direction g.options.width g.options.height
    (g.options.width + g.options.height + 2) pos).map g.cellAt

/-- Rust `ConnectFour::free_cell`: the row of the lowest free cell of `column`.
The source panics when the column is full (`expect("move impossible")`);
`List.findIdx` then returns the list length, junk the engine never uses
because `make_move` is only called on legal moves. -/
def ConnectFour.free_cell (g : ConnectFour) (column : Nat) : Nat :=
  (g.iter (column, 0) .N).findIdx (fun s => s = .Empty)

/-! ### Rule engine and state codec (`impl GameMethods for ConnectFour`) -/

/-- Rust `player_from_id`: 1 → `false`, 2 → `true`. The source `unreachable!`s on
other ids (junk here, never reached by claims about valid players). -/
def player_from_id (player : Nat) : Bool := player = 2

/-- Rust `player_to_id`. -/
def player_to_id (player : Bool) : Nat := if player then 2 else 1

/-- Decoding of one body character of the state text in `import_state`:
case-insensitively `X` or `O`, anything else is rejected. -/
def decodeStone (c : Char) : Option State :=
  if eqIgnoreAsciiCaseC c 'X' then some .X
  else if eqIgnoreAsciiCaseC c 'O' then some .O
  else none

/-- The body-scanning `for` loop of `ConnectFour::import_state`: consume
characters up to (and including) the first `#`, maintaining the write
position `pos = (column, row)`. Returns the mutated game together with
either the characters after `#` (`[]` when the text ran out without a `#`)
or the error; on error the game keeps the writes made so far, exactly like
the `&mut self` method. -/
def importLoop : ConnectFour → Pos → List Char → ConnectFour × Except ErrorCode (List Char)
  | g, _, [] => (g, .ok [])
  | g, pos, c :: rest =>
    if c = '#' then (g, .ok rest)
    else if c = '/' then
      if pos.1 + 1 ≥ g.options.width then (g, .error .InvalidInput)
      else importLoop g (pos.1 + 1, 0) rest
    else if pos.2 ≥ g.options.height then (g, .error .InvalidInput)
    else
      match decodeStone c with
      | none => (g, .error .InvalidInput)
      | some st => importLoop (g.set pos st) (pos.1, pos.2 + 1) rest

/-- The trailer handling at the end of `ConnectFour::import_state`: trim the
text after `#`, set turn/result from it (`X`/`O` case-insensitively fix the
turn, `-` is a draw, anything else is an error), then upgrade to `Winner`
when every trailer character is uppercase (`-` is not uppercase). -/
def trailerApply (g : ConnectFour) (rest : List Char) : ConnectFour × Except ErrorCode Unit :=
  let player := trimC rest
  let g' :=
    if eqIgnoreAsciiCaseS player ['X'] then
      some { g with data := { g.data with turn := false } }
    else if eqIgnoreAsciiCaseS player ['O'] then
      some { g with data := { g.data with turn := true } }
    else if player = ['-'] then
      some { g with data := { g.data with result := .Draw } }
    else none
  match g' with
  | none => (g, .error .InvalidInput)
  | some g' =>
    if player.all rustIsUppercase then
      ({ g' with data := { g'.data with result := .Winner } }, .ok ())
    else (g', .ok ())

/-- Rust `ConnectFour::import_state`: reset, then (for `Some` text) scan the
trimmed-at-the-start text up to `#` and apply the trailer. -/
def ConnectFour.import_state (g : ConnectFour) (string : Option (List Char)) :
    ConnectFour × Except ErrorCode Unit :=
  let g := { g with data := g.data.reset }
  match string with
  | none => (g, .ok ())
  | some s =>
    match importLoop g (0, 0) (trimStartC s) with
    | (g, .error e) => (g, .error e)
    | (g, .ok rest) => trailerApply g rest

/-- The character `export_state` emits for a stone (`Empty` breaks the
column loop before printing, so the `Empty` arm is never emitted). -/
def stoneChar : State → Char
  | .Empty => ' '
  | .X => 'X'
  | .O => 'O'

/-- One column of `export_state`'s output: walk north from the bottom of
column `x`, printing stones until the first `Empty` cell breaks the loop. -/
def ConnectFour.colChars (g : ConnectFour) (x : Nat) : List Char :=
  ((g.iter (x, 0) .N).takeWhile (fun s => s ≠ .Empty)).map stoneChar

/-- Join column texts with `/` (the `if x != 0 { write!("/") }` pattern). -/
def joinSlash : List (List Char) → List Char
  | [] => []
  | [c] => c
  | c :: rest => c ++ '/' :: joinSlash rest

/-- The trailer character `export_state` emits for a turn/result pair. -/
def trailerChar (turn : Bool) (result : GameResult) : Char :=
  match turn, result with
  | false, .Ongoing => 'x'
  | true, .Ongoing => 'o'
  | false, .Winner => 'X'
  | true, .Winner => 'O'
  | _, .Draw => '-'

/-- Rust `ConnectFour::export_state`: the columns joined with `/`, then `#`, then
the trailer character. -/
def ConnectFour.export_state (g : ConnectFour) : List Char :=
  joinSlash ((List.range g.options.width).map g.colChars)
    ++ '#' :: [trailerChar g.data.turn g.data.result]

/-- Rust `ConnectFour::export_options`: width, height, and length in decimal, separated by single spaces. -/
def ConnectFour.export_options (g : ConnectFour) : List Char :=
  natToChars g.options.width ++ ' ' :: (natToChars g.options.height ++ ' ' :: natToChars g.options.length)

/-- Rust `ConnectFour::is_legal_move`. The `&mut self` receiver is returned
unchanged next to the result: the body only reads. All four rejections use
`ErrorCode::InvalidInput` (messages: nonexistent column, game over, wrong
turn, full column). -/
def ConnectFour.is_legal_move (g : ConnectFour) (player : Nat) (mov : Nat) :
    ConnectFour × Except ErrorCode Unit :=
  (g,
    if mov ≥ g.options.width then .error .InvalidInput
    else if g.data.result.is_over then .error .InvalidInput
    else if g.data.turn ≠ player_from_id player then .error .InvalidInput
    else if g.cellAt (mov, g.options.height - 1) = .Empty then .ok ()
    else .error .InvalidInput)

/-- The run length found by `make_move` for one half-direction: 1 for the
new piece, plus the same-owner run in `direction` (the enumeration index,
which starts at the new piece and is ≥ 1 after `skip(1)`, must stay below
`length`), plus the same-owner run in the opposite direction (re-enumerated
from 0 after `skip(1)`, bounded by the still `missing` count). All the `u8`
counters stay ≤ `length` ≤ 255. -/
def ConnectFour.countRun (g : ConnectFour) (pos : Pos) (state : State) (direction : Direction) : Nat :=
  let count := 1 +
    (((g.iter pos direction).enum.drop 1).takeWhile
      (fun is => is.1 < g.options.length ∧ is.2 = state)).length
  let missing := g.options.length - count
  count +
    ((((g.iter pos direction.inv).drop 1).enum).takeWhile
      (fun is => is.1 < missing ∧ is.2 = state)).length

/-- The win-detection loop of `make_move`: the loop only writes
`result = Winner` and breaks, so it is the disjunction over the four
half-directions. -/
def ConnectFour.winAfter (g : ConnectFour) (pos : Pos) (state : State) : Bool :=
  Direction.half.any (fun d => g.countRun pos state d ≥ g.options.length)

/-- Rust `ConnectFour::make_move`: place the piece at the lowest free cell of the
column, set `Winner` if a half-direction completes a run of `length`, then —
unconditionally, even when a winner was just recorded — set `Draw` if the
whole topmost row is occupied, and flip the turn when the game goes on. The
source converts the `u64` move code to `u8` with `try_into().unwrap()`;
legal moves are below `width ≤ 255`, so the `Nat` model is exact there. -/
def ConnectFour.make_move (g : ConnectFour) (player : Nat) (mov : Nat) : ConnectFour :=
  let pos := (mov, g.free_cell mov)
  let state := State.from_player_id player
  let g := g.set pos state
  let g :=
    if g.winAfter pos state then
      { g with data := { g.data with result := .Winner } }
    else g
  let g :=
    if (g.iter (0, g.options.height - 1) .E).all (fun s => s ≠ .Empty) then
      { g with data := { g.data with result := .Draw } }
    else g
  if ¬ g.data.result.is_over then
    { g with data := { g.data with turn := ! g.data.turn } }
  else g

/-- The piece lookup of `GameOptions::new`: `numbers.next()` on the split
iterator. `None` (too few pieces) and unparseable pieces are
`InvalidInput`. -/
def parsePiece (piece : Option (List Char)) : Except ErrorCode Nat :=
  match piece with
  | none => .error .InvalidInput
  | some s =>
    match parseU8 s with
    | none => .error .InvalidInput
    | some n => .ok n

/-- Rust `GameOptions::new`: trim, split at every non-ASCII-digit character,
parse the first three pieces as `u8`, reject a fourth piece
(`InvalidInput`), then reject zero dimensions and a `length` exceeding both
`width` and `height` (`InvalidOptions`). -/
def GameOptions.new (options : List Char) : Except ErrorCode GameOptions :=
  let pieces := splitNonDigit (trimC options)
  match parsePiece (pieces.get? 0) with
  | .error e => .error e
  | .ok width =>
    match parsePiece (pieces.get? 1) with
    | .error e => .error e
    | .ok height =>
      match parsePiece (pieces.get? 2) with
      | .error e => .error e
      | .ok length =>
        if pieces.get? 3 ≠ none then
          .error .InvalidInput
        else if width < 1 ∨ height < 1 ∨ length < 1 then
          .error .InvalidOptions
        else if length > width ∧ length > height then
          .error .InvalidOptions
        else
          .ok { width := width, height := height, length := length }

/-- Rust `ConnectFour::create` for `GameInit::Default` / `GameInit::Standard`
without legacy data (the legacy and serialized branches return error kinds
outside the spec's two user-facing kinds and are not modelled): parse the
options (defaulting when absent), build a fresh game, then import the state
text. -/
def ConnectFour.create (opts state : Option (List Char)) : Except ErrorCode ConnectFour := do
  let options ← match opts with
    | none => .ok GameOptions.default
    | some o => GameOptions.new o
  let game : ConnectFour := { options := options, data := GameData.new options }
  match game.import_state state with
  | (game, .ok ()) => .ok game
  | (_, .error e) => .error e

/-! ### Abstractions used by the theorems -/

/-- Modelled from the spec (§4.3), for the refinement claim about `walk`:
the per-direction step as an integer offset (north = row + 1, east =
column + 1). -/
def dirDelta : Direction → Int × Int
  | .N => (0, 1)
  | .NE => (1, 1)
  | .E => (1, 0)
  | .SE => (1, -1)
  | .S => (0, -1)
  | .SW => (-1, -1)
  | .W => (-1, 0)
  | .NW => (-1, 1)

/-- Modelled from the spec (§4.3), for the refinement claim about `walk`:
shift `pos` one step in direction `d` and return it exactly when the shifted
cell lies inside `[0,width) × [0,height)` (so stepping a zero coordinate
below zero is out-of-bounds, not wraparound). -/
def specWalk (d : Direction) (pos : Pos) (width height : Nat) : Option Pos :=
  let s : Int × Int := ((pos.1 : Int) + (dirDelta d).1, (pos.2 : Int) + (dirDelta d).2)
  if 0 ≤ s.1 ∧ s.1 < (width : Int) ∧ 0 ≤ s.2 ∧ s.2 < (height : Int) then
    some (s.1.toNat, s.2.toNat)
  else none

/-- Well-formedness of a game's storage: the bit vector was allocated for
this board (`GameData::new` guarantees it and every operation preserves
it). -/
def ConnectFour.WF (g : ConnectFour) : Prop :=
  g.data.board.length = 2 * g.options.width * g.options.height ∧
  g.data.board.data.length = divCeil g.data.board.length BITS

/-- The board described by a list of column stacks (bottom to top); missing
columns and rows are `Empty`. -/
def stackFn (cols : List (List State)) (p : Pos) : State :=
  (cols.getD p.1 []).getD p.2 .Empty

/-- The game board coincides with the abstract description `f` on every
in-bounds cell. -/
def ConnectFour.BoardIs (g : ConnectFour) (f : Pos → State) : Prop :=
  ∀ x y, x < g.options.width → y < g.options.height → g.cellAt (x, y) = f (x, y)

/-- Column stacks that fit a board of height `h` and contain only stones. -/
def Stacks (h : Nat) (cols : List (List State)) : Prop :=
  ∀ col ∈ cols, col.length ≤ h ∧ ∀ s ∈ col, s ≠ .Empty

/-- The observable state of a game: every board cell (as the
column-by-column, row-by-row grid), the turn flag, and the result. -/
def ConnectFour.obs (g : ConnectFour) : List (List State) × Bool × GameResult :=
  ((List.range g.options.width).map fun x =>
    (List.range g.options.height).map fun y => g.cellAt (x, y),
   g.data.turn, g.data.result)

/-- A 1-wide, 4-high board with win length 4 (valid options: `length ≤
max(width, height)`), used to exhibit the draw-overwrites-win slip. -/
def drawBugGame : ConnectFour :=
  { options := { width := 1, height := 4, length := 4 }
    data := GameData.new { width := 1, height := 4, length := 4 } }

/-- A 1 × 1 board with win length 1, used for the `import_state`
counterexample. -/
def tinyGame : ConnectFour :=
  { options := { width := 1, height := 1, length := 1 }
    data := GameData.new { width := 1, height := 1, length := 1 } }

/-- A 2 × 2 board with win length 2, used to witness the round-trip. -/
def sample22 : ConnectFour :=
  { options := { width := 2, height := 2, length := 2 }
    data := GameData.new { width := 2, height := 2, length := 2 } }

/-! ### Lemmas about the bit storage -/

theorem getD_set_list (l : List Nat) (k m a : Nat) :
    (l.set k a).getD m 0 = if k = m ∧ k < l.length then a else l.getD m 0 := by
  simp only [List.getD_eq_getElem?_getD, List.getElem?_set]
  by_cases h : k = m
  · subst h
    by_cases h2 : k < l.length
    · simp [h2]
    · simp only [h2, if_false, if_true, and_false]
      have : l[k]? = none := by
        rw [List.getElem?_eq_none_iff]
        omega
      simp [this, h2]
  · simp [h]

theorem BITS_eq : BITS = 64 := rfl

theorem BVec.length_set (v : BVec) (i : Nat) (b : Bool) : (v.set i b).length = v.length := rfl

theorem BVec.data_length_set (v : BVec) (i : Nat) (b : Bool) :
    (v.set i b).data.length = v.data.length := by
  simp [BVec.set]

theorem testBit_update_same (w ki : Nat) (b : Bool) (hi : ki < 64) :
    (if b then w ||| 1 <<< ki else w &&& (2 ^ 64 - 1 ^^^ 1 <<< ki)).testBit ki = b := by
  have hpow : (1 : Nat) <<< ki = 2 ^ ki := by rw [Nat.shiftLeft_eq, one_mul]
  cases b with
  | true =>
    rw [if_pos rfl, hpow, Nat.testBit_or, Nat.testBit_two_pow]
    simp
  | false =>
    rw [if_neg Bool.false_ne_true, hpow, Nat.testBit_and, Nat.testBit_xor,
      Nat.testBit_two_pow_sub_one, Nat.testBit_two_pow]
    simp [hi]

theorem testBit_update_ne (w ki kj : Nat) (b : Bool) (h : ki ≠ kj) (hj : kj < 64) :
    (if b then w ||| 1 <<< ki else w &&& (2 ^ 64 - 1 ^^^ 1 <<< ki)).testBit kj = w.testBit kj := by
  have hpow : (1 : Nat) <<< ki = 2 ^ ki := by rw [Nat.shiftLeft_eq, one_mul]
  cases b with
  | true =>
    rw [if_pos rfl, hpow, Nat.testBit_or, Nat.testBit_two_pow]
    simp [h]
  | false =>
    rw [if_neg Bool.false_ne_true, hpow, Nat.testBit_and, Nat.testBit_xor,
      Nat.testBit_two_pow_sub_one, Nat.testBit_two_pow]
    simp [h, hj]

theorem BVec.get_set_ne (v : BVec) (i j : Nat) (b : Bool) (h : j ≠ i) :
    (v.set i b).get j = v.get j := by
  simp only [BVec.get, BVec.set, getD_set_list, BITS_eq]
  by_cases hw : i / 64 = j / 64
  · by_cases hl : i / 64 < v.data.length
    · rw [if_pos ⟨hw, hl⟩, hw]
      exact testBit_update_ne _ _ _ _ (by omega) (by omega)
    · rw [if_neg (by tauto)]
  · rw [if_neg (by tauto)]

theorem BVec.get_set_same (v : BVec) (i : Nat) (b : Bool)
    (h1 : i < v.length) (h2 : v.data.length = divCeil v.length BITS) :
    (v.set i b).get i = b := by
  simp only [BVec.get, BVec.set, getD_set_list, BITS_eq]
  have hl : i / 64 < v.data.length := by
    rw [h2]
    unfold divCeil
    simp only [BITS_eq]
    split <;> omega
  rw [if_pos ⟨trivial, hl⟩]
  exact testBit_update_same _ _ _ (by omega)

theorem BVec.get_new (n j : Nat) : (BVec.new n).get j = false := by
  unfold BVec.get BVec.new
  simp only [List.getD_eq_getElem?_getD, List.getElem?_replicate]
  split <;> simp

theorem BVec.get_reset (v : BVec) (j : Nat) : v.reset.get j = false := by
  unfold BVec.get BVec.reset
  simp only [List.getD_eq_getElem?_getD, List.getElem?_map]
  cases v.data[j / BITS]? <;> simp

theorem BVec.get_pair_set (b : BVec) (i : Nat) (v1 v2 : Bool)
    (h1 : i + 1 < b.length) (h2 : b.data.length = divCeil b.length BITS) :
    ((b.set i v1).set (i + 1) v2).get i = v1 ∧ ((b.set i v1).set (i + 1) v2).get (i + 1) = v2 := by
  constructor
  · rw [BVec.get_set_ne _ _ _ _ (by omega)]
    exact BVec.get_set_same _ _ _ (by omega) h2
  · have hlen : (b.set i v1).length = b.length := rfl
    have hd : (b.set i v1).data.length = b.data.length := BVec.data_length_set b i v1
    exact BVec.get_set_same _ _ _ (by rw [hlen]; omega) (by rw [hd, hlen]; exact h2)

theorem BVec.get_pair_set_ne (b : BVec) (i j : Nat) (v1 v2 : Bool)
    (hj : j ≠ i) (hj2 : j ≠ i + 1) :
    ((b.set i v1).set (i + 1) v2).get j = b.get j := by
  rw [BVec.get_set_ne _ _ _ _ hj2, BVec.get_set_ne _ _ _ _ hj]

/-! ### Lemmas about single-cell reads and writes -/

theorem linIdx_ne (h x y x' y' : Nat) (hy : y < h) (hy' : y' < h)
    (hne : (x, y) ≠ (x', y')) : x * h + y ≠ x' * h + y' := by
  intro heq
  rcases Nat.lt_trichotomy x x' with hlt | heqx | hgt
  · have hm : (x + 1) * h ≤ x' * h := Nat.mul_le_mul_right h hlt
    rw [Nat.succ_mul] at hm
    omega
  · subst heqx
    have : y = y' := by omega
    exact hne (by rw [this])
  · have hm : (x' + 1) * h ≤ x * h := Nat.mul_le_mul_right h hgt
    rw [Nat.succ_mul] at hm
    omega

theorem idx_lt (w h x y : Nat) (hx : x < w) (hy : y < h) :
    2 * (x * h + y) + 1 < 2 * w * h := by
  have hm : (x + 1) * h ≤ w * h := Nat.mul_le_mul_right h hx
  rw [Nat.succ_mul] at hm
  have hassoc : 2 * w * h = 2 * (w * h) := by ring
  omega

theorem ConnectFour.options_set (g : ConnectFour) (p : Pos) (st : State) :
    (g.set p st).options = g.options := by
  cases st <;> rfl

theorem ConnectFour.turn_set (g : ConnectFour) (p : Pos) (st : State) :
    (g.set p st).data.turn = g.data.turn := by
  cases st <;> rfl

theorem ConnectFour.result_set (g : ConnectFour) (p : Pos) (st : State) :
    (g.set p st).data.result = g.data.result := by
  cases st <;> rfl

theorem ConnectFour.board_length_set (g : ConnectFour) (p : Pos) (st : State) :
    (g.set p st).data.board.length = g.data.board.length := by
  cases st <;> rfl

theorem ConnectFour.board_data_length_set (g : ConnectFour) (p : Pos) (st : State) :
    (g.set p st).data.board.data.length = g.data.board.data.length := by
  cases st <;> simp [ConnectFour.set, ConnectFour.setBoard, BVec.data_length_set]

theorem ConnectFour.WF_set (g : ConnectFour) (p : Pos) (st : State) (h : g.WF) :
    (g.set p st).WF := by
  obtain ⟨h1, h2⟩ := h
  refine ⟨?_, ?_⟩
  · rw [ConnectFour.board_length_set, ConnectFour.options_set]
    exact h1
  · rw [ConnectFour.board_data_length_set, ConnectFour.board_length_set]
    exact h2

theorem ConnectFour.cellAt_set_self (g : ConnectFour) (p : Pos) (st : State)
    (hWF : g.WF) (hx : p.1 < g.options.width) (hy : p.2 < g.options.height) :
    (g.set p st).cellAt p = st := by
  obtain ⟨hlen, hdata⟩ := hWF
  have hb : 2 * (p.1 * g.options.height + p.2) + 1 < g.data.board.length := by
    rw [hlen]
    exact idx_lt _ _ _ _ hx hy
  cases st with
  | Empty =>
    simp only [ConnectFour.set, ConnectFour.setBoard, ConnectFour.cellAt, ConnectFour.idx]
    rw [BVec.get_set_same _ _ _ (by omega) hdata]
    simp
  | X =>
    simp only [ConnectFour.set, ConnectFour.setBoard, ConnectFour.cellAt, ConnectFour.idx]
    obtain ⟨e1, e2⟩ :=
      BVec.get_pair_set g.data.board (2 * (p.1 * g.options.height + p.2)) true false hb hdata
    simp only [e1, e2]
    simp
  | O =>
    simp only [ConnectFour.set, ConnectFour.setBoard, ConnectFour.cellAt, ConnectFour.idx]
    obtain ⟨e1, e2⟩ :=
      BVec.get_pair_set g.data.board (2 * (p.1 * g.options.height + p.2)) true true hb hdata
    simp only [e1, e2]
    simp

theorem ConnectFour.cellAt_set_other (g : ConnectFour) (p q : Pos) (st : State)
    (hpy : p.2 < g.options.height) (hqy : q.2 < g.options.height) (hne : q ≠ p) :
    (g.set p st).cellAt q = g.cellAt q := by
  have hne2 : q.1 * g.options.height + q.2 ≠ p.1 * g.options.height + p.2 := by
    apply linIdx_ne _ _ _ _ _ hqy hpy
    intro hc
    apply hne
    cases p
    cases q
    simpa using hc
  cases st with
  | Empty =>
    simp only [ConnectFour.set, ConnectFour.setBoard, ConnectFour.cellAt, ConnectFour.idx]
    simp only [BVec.get_set_ne _ _ _ _ (show 2 * (q.1 * g.options.height + q.2) ≠ 2 * (p.1 * g.options.height + p.2) by omega),
      BVec.get_set_ne _ _ _ _ (show 2 * (q.1 * g.options.height + q.2) + 1 ≠ 2 * (p.1 * g.options.height + p.2) by omega)]
  | X =>
    simp only [ConnectFour.set, ConnectFour.setBoard, ConnectFour.cellAt, ConnectFour.idx]
    simp only [BVec.get_pair_set_ne _ _ _ _ _ (show 2 * (q.1 * g.options.height + q.2) ≠ 2 * (p.1 * g.options.height + p.2) by omega) (by omega),
      BVec.get_pair_set_ne _ _ _ _ _ (show 2 * (q.1 * g.options.height + q.2) + 1 ≠ 2 * (p.1 * g.options.height + p.2) by omega) (by omega)]
  | O =>
    simp only [ConnectFour.set, ConnectFour.setBoard, ConnectFour.cellAt, ConnectFour.idx]
    simp only [BVec.get_pair_set_ne _ _ _ _ _ (show 2 * (q.1 * g.options.height + q.2) ≠ 2 * (p.1 * g.options.height + p.2) by omega) (by omega),
      BVec.get_pair_set_ne _ _ _ _ _ (show 2 * (q.1 * g.options.height + q.2) + 1 ≠ 2 * (p.1 * g.options.height + p.2) by omega) (by omega)]

theorem ConnectFour.WF_set_iff (g : ConnectFour) (p : Pos) (st : State) :
    (g.set p st).WF ↔ g.WF := by
  unfold ConnectFour.WF
  rw [ConnectFour.board_length_set, ConnectFour.board_data_length_set, ConnectFour.options_set]

theorem ConnectFour.cellAt_reset (g : ConnectFour) (p : Pos) :
    ({ g with data := g.data.reset } : ConnectFour).cellAt p = .Empty := by
  simp [ConnectFour.cellAt, GameData.reset, BVec.get_reset]

theorem ConnectFour.WF_reset (g : ConnectFour) (h : g.WF) :
    ({ g with data := g.data.reset } : ConnectFour).WF := by
  obtain ⟨h1, h2⟩ := h
  refine ⟨h1, ?_⟩
  simpa [GameData.reset, BVec.reset] using h2

/-! ### Lemmas about column-stack descriptions -/

theorem getD_singleton_nil (n : Nat) : ([([] : List State)].getD n []) = [] := by
  cases n with
  | zero => rfl
  | succ m => exact List.getD_eq_default _ _ (by simp)

theorem getD_append_nil_col (cols : List (List State)) (x : Nat) :
    (cols ++ [[]]).getD x [] = cols.getD x [] := by
  by_cases hx : x < cols.length
  · rw [List.getD_append _ _ _ _ hx]
  · rw [List.getD_append_right _ _ _ _ (by omega), getD_singleton_nil,
      List.getD_eq_default _ _ (by omega)]

theorem stackFn_append_nil (cols : List (List State)) (p : Pos) :
    stackFn (cols ++ [[]]) p = stackFn cols p := by
  unfold stackFn
  rw [getD_append_nil_col]

theorem stackFn_single_nil (p : Pos) : stackFn [[]] p = .Empty := by
  have h := stackFn_append_nil [] p
  simp only [List.nil_append] at h
  rw [h]
  simp [stackFn]

theorem stackFn_update_at (acc : List (List State)) (cur : List State) (st : State) (p : Pos) :
    stackFn (acc ++ [cur ++ [st]]) p =
      if p = (acc.length, cur.length) then st else stackFn (acc ++ [cur]) p := by
  rcases p with ⟨x, y⟩
  by_cases hx : x < acc.length
  · rw [if_neg (by simp; omega)]
    unfold stackFn
    rw [List.getD_append _ _ _ _ hx, List.getD_append _ _ _ _ hx]
  · by_cases hxe : x = acc.length
    · subst hxe
      unfold stackFn
      simp only
      rw [List.getD_append_right _ _ _ _ (Nat.le_refl _),
        List.getD_append_right _ _ _ _ (Nat.le_refl _), Nat.sub_self]
      have e1 : [cur ++ [st]].getD 0 [] = cur ++ [st] := rfl
      have e2 : [cur].getD 0 [] = cur := rfl
      rw [e1, e2]
      by_cases hy : y < cur.length
      · rw [if_neg (by simp; omega), List.getD_append _ _ _ _ hy]
      · by_cases hye : y = cur.length
        · subst hye
          rw [if_pos rfl, List.getD_append_right _ _ _ _ (Nat.le_refl _), Nat.sub_self]
          rfl
        · rw [if_neg (by simp; omega)]
          rw [List.getD_eq_default (cur ++ [st]) _ (by simp; omega)]
          rw [List.getD_eq_default cur _ (by omega)]
    · rw [if_neg (by simp; omega)]
      unfold stackFn
      simp only
      rw [List.getD_append_right _ _ _ _ (by omega), List.getD_append_right _ _ _ _ (by omega)]
      have h1 : [cur ++ [st]].getD (x - acc.length) [] = [] :=
        List.getD_eq_default _ _ (by simp; omega)
      have h2 : [cur].getD (x - acc.length) [] = [] :=
        List.getD_eq_default _ _ (by simp; omega)
      rw [h1, h2]

theorem ConnectFour.BoardIs_set_step (g : ConnectFour) (acc : List (List State))
    (cur : List State) (st : State)
    (hWF : g.WF) (hc : acc.length < g.options.width) (hr : cur.length < g.options.height)
    (hB : g.BoardIs (stackFn (acc ++ [cur]))) :
    (g.set (acc.length, cur.length) st).BoardIs (stackFn (acc ++ [cur ++ [st]])) := by
  intro x y hx hy
  rw [ConnectFour.options_set] at hx hy
  rw [stackFn_update_at]
  by_cases hp : ((x, y) : Pos) = (acc.length, cur.length)
  · rw [if_pos hp, hp]
    exact ConnectFour.cellAt_set_self g _ st hWF hc hr
  · rw [if_neg hp, ConnectFour.cellAt_set_other g _ _ st hr hy hp]
    exact hB x y hx hy

/-! ### Lemmas about `importLoop` -/

theorem importLoop_pres (cs : List Char) : ∀ (g : ConnectFour) (pos : Pos),
    (importLoop g pos cs).1.options = g.options ∧
    (importLoop g pos cs).1.data.turn = g.data.turn ∧
    (importLoop g pos cs).1.data.result = g.data.result ∧
    ((importLoop g pos cs).1.WF ↔ g.WF) := by
  induction cs with
  | nil =>
    intro g pos
    simp [importLoop]
  | cons c rest ih =>
    intro g pos
    unfold importLoop
    by_cases h1 : c = '#'
    · simp [h1]
    · rw [if_neg h1]
      by_cases h2 : c = '/'
      · rw [if_pos h2]
        by_cases h3 : pos.1 + 1 ≥ g.options.width
        · simp [h3]
        · rw [if_neg h3]
          exact ih g (pos.1 + 1, 0)
      · rw [if_neg h2]
        by_cases h4 : pos.2 ≥ g.options.height
        · simp [h4]
        · rw [if_neg h4]
          cases hd : decodeStone c with
          | none => simp
          | some st =>
            have h := ih (g.set pos st) (pos.1, pos.2 + 1)
            rw [ConnectFour.options_set, ConnectFour.turn_set, ConnectFour.result_set,
              ConnectFour.WF_set_iff] at h
            simpa using h

theorem decodeStone_ne_empty (c : Char) (st : State) (h : decodeStone c = some st) :
    st ≠ .Empty := by
  unfold decodeStone at h
  by_cases h1 : eqIgnoreAsciiCaseC c 'X'
  · rw [if_pos h1] at h
    cases h
    intro hc
    cases hc
  · rw [if_neg h1] at h
    by_cases h2 : eqIgnoreAsciiCaseC c 'O'
    · rw [if_pos h2] at h
      cases h
      intro hc
      cases hc
    · rw [if_neg h2] at h
      cases h

/-- Forward characterization of a successful `importLoop` run: starting from
a board that is `acc` full columns plus a partly filled current column `cur`, a
successful run ends in a board that is some list of column stacks fitting
the board. -/
theorem importLoop_ok_stacks (cs : List Char) :
    ∀ (acc : List (List State)) (cur : List State) (g g' : ConnectFour) (rest : List Char),
    g.WF → acc.length < g.options.width → cur.length ≤ g.options.height →
    Stacks g.options.height acc → cur.length ≤ g.options.height →
    (∀ s ∈ cur, s ≠ .Empty) →
    g.BoardIs (stackFn (acc ++ [cur])) →
    importLoop g (acc.length, cur.length) cs = (g', .ok rest) →
    ∃ cols, cols.length ≤ g.options.width ∧ Stacks g.options.height cols ∧
      g'.BoardIs (stackFn cols) := by
  induction cs with
  | nil =>
    intro acc cur g g' rest hWF hc hr hacc hr2 hcur hB himp
    simp only [importLoop, Prod.mk.injEq] at himp
    obtain ⟨h1, h2⟩ := himp
    refine ⟨acc ++ [cur], by simp; omega, ?_, by rw [← h1]; exact hB⟩
    intro col hcol
    rcases List.mem_append.1 hcol with h | h
    · exact hacc col h
    · rcases List.mem_singleton.1 h with rfl
      exact ⟨hr, hcur⟩
  | cons c rest0 ih =>
    intro acc cur g g' rest hWF hc hr hacc hr2 hcur hB himp
    unfold importLoop at himp
    by_cases h1 : c = '#'
    · rw [if_pos h1] at himp
      simp only [Prod.mk.injEq] at himp
      obtain ⟨hg, _⟩ := himp
      refine ⟨acc ++ [cur], by simp; omega, ?_, by rw [← hg]; exact hB⟩
      intro col hcol
      rcases List.mem_append.1 hcol with h | h
      · exact hacc col h
      · rcases List.mem_singleton.1 h with rfl
        exact ⟨hr, hcur⟩
    · rw [if_neg h1] at himp
      by_cases h2 : c = '/'
      · rw [if_pos h2] at himp
        by_cases h3 : acc.length + 1 ≥ g.options.width
        · rw [if_pos h3] at himp
          simp at himp
        · rw [if_neg h3] at himp
          have hB' : g.BoardIs (stackFn ((acc ++ [cur]) ++ [[]])) := by
            intro x y hx hy
            rw [stackFn_append_nil]
            exact hB x y hx hy
          have hacc' : Stacks g.options.height (acc ++ [cur]) := by
            intro col hcol
            rcases List.mem_append.1 hcol with h | h
            · exact hacc col h
            · rcases List.mem_singleton.1 h with rfl
              exact ⟨hr, hcur⟩
          have := ih (acc ++ [cur]) [] g g' rest hWF (by simp; omega) (by simp)
            hacc' (by simp) (by simp) hB' (by simpa using himp)
          exact this
      · rw [if_neg h2] at himp
        by_cases h4 : cur.length ≥ g.options.height
        · rw [if_pos h4] at himp
          simp at himp
        · rw [if_neg h4] at himp
          cases hd : decodeStone c with
          | none =>
            rw [hd] at himp
            simp at himp
          | some st =>
            rw [hd] at himp
            have hst := decodeStone_ne_empty c st hd
            have hB' := ConnectFour.BoardIs_set_step g acc cur st hWF hc (by omega) hB
            have hWF' : (g.set (acc.length, cur.length) st).WF :=
              (ConnectFour.WF_set_iff g _ st).2 hWF
            have hopts := ConnectFour.options_set g (acc.length, cur.length) st
            have := ih acc (cur ++ [st]) (g.set (acc.length, cur.length) st) g' rest
              hWF' (by rw [hopts]; omega) (by rw [hopts]; simp; omega)
              (by rw [hopts]; exact hacc) (by rw [hopts]; simp; omega)
              (by intro s hs; rcases List.mem_append.1 hs with h | h
                  · exact hcur s h
                  · rcases List.mem_singleton.1 h with rfl; exact hst)
              hB' (by simpa using himp)
            rw [hopts] at this
            exact this

theorem decodeStone_stoneChar (st : State) (h : st ≠ .Empty) :
    decodeStone (stoneChar st) = some st := by
  cases st with
  | Empty => exact absurd rfl h
  | X => decide
  | O => decide

theorem stoneChar_ne_hash (st : State) (h : st ≠ .Empty) : stoneChar st ≠ '#' := by
  cases st with
  | Empty => exact absurd rfl h
  | X => decide
  | O => decide

theorem stoneChar_ne_slash (st : State) (h : st ≠ .Empty) : stoneChar st ≠ '/' := by
  cases st with
  | Empty => exact absurd rfl h
  | X => decide
  | O => decide

/-- Step equation of `importLoop` for a stone character. -/
theorem importLoop_cons_stone (g : ConnectFour) (pos : Pos) (c : Char) (rest : List Char)
    (st : State) (h1 : c ≠ '#') (h2 : c ≠ '/') (h3 : ¬ pos.2 ≥ g.options.height)
    (h4 : decodeStone c = some st) :
    importLoop g pos (c :: rest) = importLoop (g.set pos st) (pos.1, pos.2 + 1) rest := by
  conv_lhs => unfold importLoop
  rw [if_neg h1, if_neg h2, if_neg h3, h4]

/-- Step equation of `importLoop` for the `#` terminator. -/
theorem importLoop_cons_hash (g : ConnectFour) (pos : Pos) (rest : List Char) :
    importLoop g pos ('#' :: rest) = (g, .ok rest) := by
  conv_lhs => unfold importLoop
  rw [if_pos rfl]

/-- Step equation of `importLoop` for a column separator that stays in
range. -/
theorem importLoop_cons_slash (g : ConnectFour) (pos : Pos) (rest : List Char)
    (h : ¬ pos.1 + 1 ≥ g.options.width) :
    importLoop g pos ('/' :: rest) = importLoop g (pos.1 + 1, 0) rest := by
  conv_lhs => unfold importLoop
  rw [if_neg (by decide : ¬ ('/' : Char) = '#'), if_pos rfl, if_neg h]

/-- Running `importLoop` over the stone characters of one column stack: the
stones are written one by one and the loop continues after them. -/
theorem importLoop_stones (col : List State) :
    ∀ (cs2 : List Char) (acc : List (List State)) (cur : List State) (g : ConnectFour),
    g.WF → acc.length < g.options.width → cur.length + col.length ≤ g.options.height →
    (∀ s ∈ col, s ≠ .Empty) →
    g.BoardIs (stackFn (acc ++ [cur])) →
    ∃ g2, importLoop g (acc.length, cur.length) (col.map stoneChar ++ cs2) =
        importLoop g2 (acc.length, cur.length + col.length) cs2 ∧
      g2.WF ∧ g2.options = g.options ∧ g2.data.turn = g.data.turn ∧
      g2.data.result = g.data.result ∧ g2.BoardIs (stackFn (acc ++ [cur ++ col])) := by
  induction col with
  | nil =>
    intro cs2 acc cur g hWF hc hcol hst hB
    exact ⟨g, by simp, hWF, rfl, rfl, rfl, by simpa using hB⟩
  | cons st col' ih =>
    intro cs2 acc cur g hWF hc hcol hst hB
    have hstE : st ≠ .Empty := hst st (by simp)
    have hcol' : cur.length + (1 + col'.length) ≤ g.options.height := by
      simpa [Nat.add_comm] using hcol
    have hstep : importLoop g (acc.length, cur.length)
        ((st :: col').map stoneChar ++ cs2) =
        importLoop (g.set (acc.length, cur.length) st) (acc.length, cur.length + 1)
          (col'.map stoneChar ++ cs2) :=
      importLoop_cons_stone g (acc.length, cur.length) (stoneChar st) _ st
        (stoneChar_ne_hash st hstE) (stoneChar_ne_slash st hstE)
        (by simp only; omega) (decodeStone_stoneChar st hstE)
    have hWF2 : (g.set (acc.length, cur.length) st).WF :=
      (ConnectFour.WF_set_iff g _ st).2 hWF
    have hopts := ConnectFour.options_set g (acc.length, cur.length) st
    have hB2 := ConnectFour.BoardIs_set_step g acc cur st hWF hc (by omega) hB
    have hlen1 : (cur ++ [st]).length = cur.length + 1 := by simp
    obtain ⟨g2, heq, h1, h2, h3, h4, h5⟩ :=
      ih cs2 acc (cur ++ [st]) (g.set (acc.length, cur.length) st)
        hWF2
        (by rw [hopts]; omega)
        (by rw [hopts, hlen1]; omega)
        (fun s hs => hst s (by simp [hs]))
        hB2
    rw [hlen1] at heq
    refine ⟨g2, ?_, h1, by rw [h2, hopts], by rw [h3, ConnectFour.turn_set],
      by rw [h4, ConnectFour.result_set], ?_⟩
    · rw [hstep, heq]
      have harith : cur.length + 1 + col'.length = cur.length + (st :: col').length := by
        simp
        omega
      rw [harith]
    · have hassoc : (cur ++ [st]) ++ col' = cur ++ (st :: col') := by simp
      rw [hassoc] at h5
      exact h5

/-- Running `importLoop` over an exported body: the columns are written one
after the other and the loop stops at `#`, handing back the trailer text. -/
theorem importLoop_canonical (rest : List (List State)) :
    ∀ (acc : List (List State)) (g : ConnectFour) (tail : List Char),
    g.WF → acc.length + rest.length = g.options.width → rest ≠ [] →
    Stacks g.options.height rest →
    g.BoardIs (stackFn (acc ++ [[]])) →
    ∃ g2, importLoop g (acc.length, 0) (joinSlash (rest.map (List.map stoneChar)) ++ '#' :: tail)
        = (g2, .ok tail) ∧ g2.WF ∧ g2.options = g.options ∧ g2.data.turn = g.data.turn ∧
      g2.data.result = g.data.result ∧ g2.BoardIs (stackFn (acc ++ rest)) := by
  induction rest with
  | nil =>
    intro acc g tail hWF hlen hne hstacks hB
    exact absurd rfl hne
  | cons col rest' ih =>
    intro acc g tail hWF hlen hne hstacks hB
    have hcolstack := hstacks col (by simp)
    cases rest' with
    | nil =>
      have hjoin : joinSlash ((col :: []).map (List.map stoneChar)) = col.map stoneChar := rfl
      rw [hjoin]
      obtain ⟨g2, heq, h1, h2, h3, h4, h5⟩ :=
        importLoop_stones col ('#' :: tail) acc [] g hWF (by simp at hlen; omega)
          (by simp; exact hcolstack.1) hcolstack.2 hB
      rw [importLoop_cons_hash] at heq
      refine ⟨g2, by simpa using heq, h1, h2, h3, h4, ?_⟩
      simpa using h5
    | cons col2 rest'' =>
      have hjoin : joinSlash ((col :: col2 :: rest'').map (List.map stoneChar)) =
          col.map stoneChar ++ '/' :: joinSlash ((col2 :: rest'').map (List.map stoneChar)) := rfl
      rw [hjoin, List.append_assoc, List.cons_append]
      obtain ⟨g2, heq, h1, h2, h3, h4, h5⟩ :=
        importLoop_stones col ('/' :: (joinSlash ((col2 :: rest'').map (List.map stoneChar)) ++ '#' :: tail))
          acc [] g hWF (by simp at hlen ⊢; omega) (by simp; exact hcolstack.1) hcolstack.2 hB
      have hslash : importLoop g2 (acc.length, 0 + col.length)
          ('/' :: (joinSlash ((col2 :: rest'').map (List.map stoneChar)) ++ '#' :: tail)) =
          importLoop g2 (acc.length + 1, 0)
            (joinSlash ((col2 :: rest'').map (List.map stoneChar)) ++ '#' :: tail) :=
        importLoop_cons_slash g2 (acc.length, 0 + col.length) _
          (by simp only [h2]; simp at hlen ⊢; omega)
      obtain ⟨g3, heq3, h31, h32, h33, h34, h35⟩ :=
        ih (acc ++ [col]) g2 tail h1
          (by rw [h2]; simp at hlen ⊢; omega)
          (by simp)
          (by rw [h2]; intro c hc; exact hstacks c (by simp [hc]))
          (by intro x y hx hy
              rw [stackFn_append_nil]
              have := h5 x y hx hy
              simpa using this)
      refine ⟨g3, ?_, h31, by rw [h32, h2], by rw [h33, h3], by rw [h34, h4], ?_⟩
      · simp only [List.length_nil, Nat.zero_add] at heq hslash
        rw [heq, hslash]
        have hlen2 : (acc ++ [col]).length = acc.length + 1 := by simp
        rw [← hlen2]
        exact heq3
      · have : (acc ++ [col]) ++ (col2 :: rest'') = acc ++ (col :: col2 :: rest'') := by simp
        rw [this] at h35
        exact h35

/-! ### Lemmas about the trailer -/

theorem trailerApply_ok_cases (g g' : ConnectFour) (rest : List Char)
    (h : trailerApply g rest = (g', .ok ())) :
    (∃ t : Bool, g' = { g with data := { g.data with turn := t } }) ∨
    (∃ t : Bool, g' = { g with data := { g.data with turn := t, result := .Winner } }) ∨
    g' = { g with data := { g.data with result := .Draw } } := by
  unfold trailerApply at h
  dsimp only at h
  by_cases h1 : eqIgnoreAsciiCaseS (trimC rest) ['X']
  · rw [if_pos h1] at h
    dsimp only at h
    by_cases hu : (trimC rest).all rustIsUppercase
    · rw [if_pos hu] at h
      simp only [Prod.mk.injEq] at h
      exact Or.inr (Or.inl ⟨false, h.1.symm⟩)
    · rw [if_neg hu] at h
      simp only [Prod.mk.injEq] at h
      exact Or.inl ⟨false, h.1.symm⟩
  · rw [if_neg h1] at h
    by_cases h2 : eqIgnoreAsciiCaseS (trimC rest) ['O']
    · rw [if_pos h2] at h
      dsimp only at h
      by_cases hu : (trimC rest).all rustIsUppercase
      · rw [if_pos hu] at h
        simp only [Prod.mk.injEq] at h
        exact Or.inr (Or.inl ⟨true, h.1.symm⟩)
      · rw [if_neg hu] at h
        simp only [Prod.mk.injEq] at h
        exact Or.inl ⟨true, h.1.symm⟩
    · rw [if_neg h2] at h
      by_cases h3 : trimC rest = ['-']
      · rw [if_pos h3] at h
        dsimp only at h
        by_cases hu : (trimC rest).all rustIsUppercase
        · rw [h3] at hu
          exact absurd hu (by decide)
        · rw [if_neg hu] at h
          simp only [Prod.mk.injEq] at h
          exact Or.inr (Or.inr h.1.symm)
      · rw [if_neg h3] at h
        simp at h

theorem trailerApply_error (g : ConnectFour) (rest : List Char)
    (hx : ¬ eqIgnoreAsciiCaseS (trimC rest) ['X'])
    (ho : ¬ eqIgnoreAsciiCaseS (trimC rest) ['O'])
    (hd : trimC rest ≠ ['-']) :
    trailerApply g rest = (g, .error .InvalidInput) := by
  unfold trailerApply
  dsimp only
  rw [if_neg hx, if_neg ho, if_neg hd]

theorem trailerApply_trailerChar (g : ConnectFour) (t : Bool) (r : GameResult)
    (hres : g.data.result = .Ongoing) (hturn : g.data.turn = false)
    (hrc : r = .Draw → t = false) :
    trailerApply g [trailerChar t r] =
      ({ g with data := { g.data with turn := t, result := r } }, .ok ()) := by
  rcases g with ⟨opts, board, turn, result⟩
  simp only at hres hturn
  subst hres
  subst hturn
  cases t with
  | false =>
    cases r with
    | Ongoing => rfl
    | Winner => rfl
    | Draw => rfl
  | true =>
    cases r with
    | Ongoing => rfl
    | Winner => rfl
    | Draw => exact absurd (hrc rfl) (by decide)

/-! ### Lemmas about `export_state` -/

theorem walkPos_N (w h : Nat) (fuel : Nat) : ∀ (x y : Nat), y < h → h - y ≤ fuel →
    walkPosFuel .N w h fuel (x, y) = (List.range (h - y)).map (fun i => (x, y + i)) := by
  induction fuel with
  | zero =>
    intro x y hy hf
    omega
  | succ f ih =>
    intro x y hy hf
    unfold walkPosFuel
    have hwalk : Direction.walk .N (x, y) w h =
        if y + 1 ≥ h then none else some (x, y + 1) := rfl
    rw [hwalk]
    by_cases htop : y + 1 ≥ h
    · rw [if_pos htop]
      have h1 : h - y = 1 := by omega
      rw [h1, List.range_succ_eq_map]
      simp
    · rw [if_neg htop]
      dsimp only
      have hn : h - y = (h - (y + 1)) + 1 := by omega
      rw [ih x (y + 1) (by omega) (by omega), hn, List.range_succ_eq_map, List.map_cons,
        List.map_map]
      refine congrArg₂ _ (by simp) ?_
      apply List.map_congr_left
      intro a ha
      simp only [Function.comp]
      refine congrArg _ ?_
      omega

theorem iter_N_cells (g : ConnectFour) (x : Nat) (hh : 1 ≤ g.options.height) :
    g.iter (x, 0) .N = (List.range g.options.height).map (fun y => g.cellAt (x, y)) := by
  unfold ConnectFour.iter
  rw [walkPos_N g.options.width g.options.height _ x 0 (by omega) (by omega), List.map_map]
  simp

theorem range_map_getD (col : List State) : ∀ (h : Nat), col.length ≤ h →
    (List.range h).map (fun y => col.getD y .Empty) =
      col ++ List.replicate (h - col.length) .Empty := by
  induction col with
  | nil =>
    intro h hle
    simp only [List.getD_nil, List.nil_append, Nat.sub_zero]
    have hconst : (fun (y : Nat) => State.Empty) = Function.const Nat State.Empty := rfl
    rw [hconst, List.map_const, List.length_range]
    simp
  | cons c col' ih =>
    intro h hle
    cases h with
    | zero => simp at hle
    | succ h' =>
      rw [List.range_succ_eq_map, List.map_cons, List.map_map]
      have h0 : (c :: col').getD 0 .Empty = c := rfl
      rw [h0]
      have hcomp : ((fun y => (c :: col').getD y .Empty) ∘ Nat.succ) =
          fun y => col'.getD y .Empty := by
        funext y
        rfl
      rw [hcomp, ih h' (by simp at hle; omega)]
      simp

theorem takeWhile_stones (col : List State) (k : Nat) (hcol : ∀ s ∈ col, s ≠ State.Empty) :
    (col ++ List.replicate k State.Empty).takeWhile (fun s => s ≠ State.Empty) = col := by
  induction col with
  | nil =>
    cases k with
    | zero => rfl
    | succ k' =>
      rw [List.nil_append, List.replicate_succ, List.takeWhile_cons]
      rw [if_neg (by simp)]
  | cons c col' ih =>
    have hc : c ≠ .Empty := hcol c (by simp)
    rw [List.cons_append, List.takeWhile_cons, if_pos (by simpa using hc)]
    rw [ih (fun s hs => hcol s (by simp [hs]))]

theorem colChars_stack (g : ConnectFour) (cols : List (List State)) (x : Nat)
    (hB : g.BoardIs (stackFn cols)) (hx : x < g.options.width) (hh : 1 ≤ g.options.height)
    (hstacks : Stacks g.options.height cols) :
    g.colChars x = (cols.getD x []).map stoneChar := by
  unfold ConnectFour.colChars
  rw [iter_N_cells g x hh]
  have hcolgood : (cols.getD x []).length ≤ g.options.height ∧
      ∀ s ∈ cols.getD x [], s ≠ .Empty := by
    by_cases hxl : x < cols.length
    · rw [List.getD_eq_getElem _ _ hxl]
      exact hstacks _ (List.getElem_mem hxl)
    · rw [List.getD_eq_default _ _ (by omega)]
      exact ⟨by simp, by simp⟩
  have hcells : (List.range g.options.height).map (fun y => g.cellAt (x, y)) =
      (List.range g.options.height).map (fun y => (cols.getD x []).getD y .Empty) := by
    apply List.map_congr_left
    intro y hy
    rw [List.mem_range] at hy
    exact hB x y hx hy
  rw [hcells, range_map_getD _ _ hcolgood.1, takeWhile_stones _ _ hcolgood.2]

theorem export_state_stack (g : ConnectFour) (cols : List (List State))
    (hB : g.BoardIs (stackFn cols)) (hh : 1 ≤ g.options.height)
    (hstacks : Stacks g.options.height cols) :
    g.export_state =
      joinSlash ((List.range g.options.width).map (fun x => (cols.getD x []).map stoneChar))
        ++ '#' :: [trailerChar g.data.turn g.data.result] := by
  unfold ConnectFour.export_state
  refine congrArg₂ _ (congrArg _ ?_) rfl
  apply List.map_congr_left
  intro x hx
  rw [List.mem_range] at hx
  exact colChars_stack g cols x hB hx hh hstacks

theorem getD_range_map (cols : List (List State)) (w x : Nat) (hx : x < w) :
    (((List.range w).map (fun i => cols.getD i [])).getD x []) = cols.getD x [] := by
  rw [List.getD_eq_getElem?_getD, List.getElem?_map, List.getElem?_range hx]
  rfl

/-! ### Auxiliary lemmas for the round-trip theorem -/

theorem import_state_some (g : ConnectFour) (s : List Char) :
    g.import_state (some s) =
      match importLoop { g with data := g.data.reset } (0, 0) (trimStartC s) with
      | (g', .error e) => (g', .error e)
      | (g', .ok rest) => trailerApply g' rest := rfl

theorem cellAt_update_turn (g : ConnectFour) (t : Bool) (p : Pos) :
    ({ g with data := { g.data with turn := t } } : ConnectFour).cellAt p = g.cellAt p := rfl

theorem cellAt_update_turn_result (g : ConnectFour) (t : Bool) (r : GameResult) (p : Pos) :
    ({ g with data := { g.data with turn := t, result := r } } : ConnectFour).cellAt p
      = g.cellAt p := rfl

theorem cellAt_update_result (g : ConnectFour) (r : GameResult) (p : Pos) :
    ({ g with data := { g.data with result := r } } : ConnectFour).cellAt p = g.cellAt p := rfl

theorem WF_update_turn (g : ConnectFour) (t : Bool) :
    ({ g with data := { g.data with turn := t } } : ConnectFour).WF ↔ g.WF := Iff.rfl

theorem WF_update_turn_result (g : ConnectFour) (t : Bool) (r : GameResult) :
    ({ g with data := { g.data with turn := t, result := r } } : ConnectFour).WF ↔ g.WF :=
  Iff.rfl

theorem WF_update_result (g : ConnectFour) (r : GameResult) :
    ({ g with data := { g.data with result := r } } : ConnectFour).WF ↔ g.WF := Iff.rfl

theorem reset_BoardIs (g : ConnectFour) :
    ({ g with data := g.data.reset } : ConnectFour).BoardIs (stackFn ([] ++ [[]])) := by
  intro x y hx hy
  rw [ConnectFour.cellAt_reset, List.nil_append, stackFn_single_nil]

theorem stoneChar_not_ws (s : State) (h : s ≠ State.Empty) :
    ¬ rustIsWhitespace (stoneChar s) = true := by
  cases s with
  | Empty => exact absurd rfl h
  | X => decide
  | O => decide

theorem trailerChar_not_ws (t : Bool) (r : GameResult) :
    ¬ rustIsWhitespace (trailerChar t r) = true := by
  cases t <;> cases r <;> decide

theorem joinSlash_chars (gs : List (List Char)) : ∀ (c : Char), c ∈ joinSlash gs →
    c = '/' ∨ ∃ grp ∈ gs, c ∈ grp := by
  induction gs with
  | nil =>
    intro c hc
    simp [joinSlash] at hc
  | cons g0 tail ih =>
    intro c hc
    cases tail with
    | nil =>
      right
      exact ⟨g0, by simp, hc⟩
    | cons g1 rest =>
      rw [show joinSlash (g0 :: g1 :: rest) = g0 ++ '/' :: joinSlash (g1 :: rest) from rfl] at hc
      rcases List.mem_append.1 hc with h | h
      · exact Or.inr ⟨g0, by simp, h⟩
      · rcases List.mem_cons.1 h with h | h
        · exact Or.inl h
        · rcases ih c h with h | ⟨grp, hg, hcg⟩
          · exact Or.inl h
          · exact Or.inr ⟨grp, by simp [hg], hcg⟩

theorem trimStart_eq_self (cs : List Char) (h : ∀ c ∈ cs, ¬ rustIsWhitespace c = true) :
    trimStartC cs = cs := by
  cases cs with
  | nil => rfl
  | cons c rest =>
    unfold trimStartC
    rw [List.dropWhile_cons, if_neg (h c (by simp))]

theorem stacks_range_getD (cols : List (List State)) (h w : Nat) (hst : Stacks h cols) :
    Stacks h ((List.range w).map (fun x => cols.getD x [])) := by
  intro col hcol
  rw [List.mem_map] at hcol
  obtain ⟨x, _, rfl⟩ := hcol
  by_cases hxl : x < cols.length
  · rw [List.getD_eq_getElem _ _ hxl]
    exact hst _ (List.getElem_mem hxl)
  · rw [List.getD_eq_default _ _ (by omega)]
    exact ⟨by simp, by simp⟩

theorem stacks_getD_stone (cols : List (List State)) (h x : Nat) (hst : Stacks h cols)
    (s : State) (hs : s ∈ cols.getD x []) : s ≠ .Empty := by
  by_cases hxl : x < cols.length
  · rw [List.getD_eq_getElem _ _ hxl] at hs
    exact (hst _ (List.getElem_mem hxl)).2 s hs
  · rw [List.getD_eq_default _ _ (by omega)] at hs
    simp at hs

/-- Re-importing an exported stacked board reproduces the observable state.
This is the second half of the round-trip argument: it applies to any game
whose board is described by column stacks and whose turn flag is `false`
whenever the result is a draw (both hold after any successful import). -/
theorem reimport_same (g1 : ConnectFour) (cols : List (List State))
    (hWF1 : g1.WF) (hw : 1 ≤ g1.options.width) (hh : 1 ≤ g1.options.height)
    (hstacks : Stacks g1.options.height cols)
    (hB1 : g1.BoardIs (stackFn cols))
    (hrc : g1.data.result = .Draw → g1.data.turn = false) :
    ∃ g2, g1.import_state (some g1.export_state) = (g2, .ok ()) ∧ g2.obs = g1.obs := by
  have hexp := export_state_stack g1 cols hB1 hh hstacks
  have hgroups : ((List.range g1.options.width).map (fun x => cols.getD x [])).map
      (List.map stoneChar) =
      (List.range g1.options.width).map (fun x => (cols.getD x []).map stoneChar) := by
    rw [List.map_map]
    rfl
  have hnws : ∀ c ∈ g1.export_state, ¬ rustIsWhitespace c = true := by
    rw [hexp]
    intro c hc
    rcases List.mem_append.1 hc with hcj | hct
    · rcases joinSlash_chars _ c hcj with rfl | ⟨grp, hgrp, hcg⟩
      · decide
      · rw [List.mem_map] at hgrp
        obtain ⟨x, hx, rfl⟩ := hgrp
        rw [List.mem_map] at hcg
        obtain ⟨s, hs, rfl⟩ := hcg
        exact stoneChar_not_ws s (stacks_getD_stone cols _ x hstacks s hs)
    · rcases List.mem_cons.1 hct with rfl | hct2
      · decide
      · rcases List.mem_singleton.1 hct2 with rfl
        exact trailerChar_not_ws _ _
  have htrim : trimStartC g1.export_state = g1.export_state := trimStart_eq_self _ hnws
  obtain ⟨g2l, hloop, hWF2, hopt2, hturn2, hres2, hB2⟩ := importLoop_canonical
    ((List.range g1.options.width).map (fun x => cols.getD x [])) []
    { g1 with data := g1.data.reset } [trailerChar g1.data.turn g1.data.result]
    (ConnectFour.WF_reset g1 hWF1)
    (by simp)
    (by simp; omega)
    (stacks_range_getD cols _ _ hstacks)
    (reset_BoardIs g1)
  simp only [List.length_nil] at hloop
  have hbody : trimStartC g1.export_state =
      joinSlash (((List.range g1.options.width).map (fun x => cols.getD x [])).map
        (List.map stoneChar)) ++ '#' :: [trailerChar g1.data.turn g1.data.result] := by
    rw [htrim, hexp, hgroups]
  have hres2' : g2l.data.result = .Ongoing := hres2
  have hturn2' : g2l.data.turn = false := hturn2
  have hopt2' : g2l.options = g1.options := hopt2
  set gfin : ConnectFour := { g2l with data := { g2l.data with turn := g1.data.turn, result := g1.data.result } } with hgfin
  refine ⟨gfin, ?_, ?_⟩
  · rw [import_state_some, hbody, hloop]
    dsimp only
    rw [hgfin]
    exact trailerApply_trailerChar g2l g1.data.turn g1.data.result hres2' hturn2' hrc
  · have hfo : gfin.options = g1.options := hopt2'
    have hcells : ∀ x y, x < g1.options.width → y < g1.options.height →
        gfin.cellAt (x, y) = g1.cellAt (x, y) := by
      intro x y hx hy
      rw [hgfin, cellAt_update_turn_result]
      have h2 := hB2 x y (by rw [hopt2']; exact hx) (by rw [hopt2']; exact hy)
      rw [List.nil_append] at h2
      rw [h2]
      rw [hB1 x y hx hy]
      unfold stackFn
      rw [getD_range_map cols _ x hx]
    unfold ConnectFour.obs
    rw [hfo]
    refine congrArg₂ _ ?_ ?_
    · apply List.map_congr_left
      intro x hx
      rw [List.mem_range] at hx
      apply List.map_congr_left
      intro y hy
      rw [List.mem_range] at hy
      exact hcells x y hx hy
    · refine congrArg₂ _ (by rw [hgfin]) (by rw [hgfin])

/-- C4: for every state text `t` accepted by `import_state` on a game with
valid options, running `export_state` and importing its output again yields
a successful import and an identical observable state (every board cell, the
turn flag, and the result). -/
theorem c4_state_roundtrip (g g1 : ConnectFour) (t : List Char)
    (hWF : g.WF) (hw : 1 ≤ g.options.width) (hh : 1 ≤ g.options.height)
    (himp : g.import_state (some t) = (g1, .ok ())) :
    ∃ g2, g1.import_state (some g1.export_state) = (g2, .ok ()) ∧ g2.obs = g1.obs := by
  rw [import_state_some] at himp
  rcases hres : importLoop { g with data := g.data.reset } (0, 0) (trimStartC t) with ⟨gb, r⟩
  rw [hres] at himp
  cases r with
  | error e =>
    dsimp only at himp
    simp at himp
  | ok rest =>
    dsimp only at himp
    have hpres := importLoop_pres (trimStartC t) { g with data := g.data.reset } (0, 0)
    rw [hres] at hpres
    dsimp only at hpres
    obtain ⟨hbo, hbt, hbr, hbWF⟩ := hpres
    have hgbWF : gb.WF := hbWF.2 (ConnectFour.WF_reset g hWF)
    have hgbres : gb.data.result = .Ongoing := hbr
    have hgbturn : gb.data.turn = false := hbt
    have hgbopt : gb.options = g.options := hbo
    obtain ⟨cols, hclen, hcstacks, hBgb⟩ := importLoop_ok_stacks (trimStartC t) [] []
      { g with data := g.data.reset } gb rest (ConnectFour.WF_reset g hWF)
      (by simpa using hw) (by simp)
      (by intro col hcol; simp at hcol)
      (by simp) (by simp)
      (reset_BoardIs g)
      hres
    have hcstacks' : Stacks g.options.height cols := hcstacks
    rcases trailerApply_ok_cases gb g1 rest himp with ⟨tb, rfl⟩ | ⟨tb, rfl⟩ | rfl
    · refine reimport_same _ cols ((WF_update_turn gb tb).2 hgbWF) ?_ ?_ ?_ ?_ ?_
      · rw [show ({ gb with data := { gb.data with turn := tb } } : ConnectFour).options = g.options from hgbopt]
        exact hw
      · rw [show ({ gb with data := { gb.data with turn := tb } } : ConnectFour).options = g.options from hgbopt]
        exact hh
      · rw [show ({ gb with data := { gb.data with turn := tb } } : ConnectFour).options = g.options from hgbopt]
        exact hcstacks'
      · intro x y hx hy
        rw [cellAt_update_turn]
        exact hBgb x y hx hy
      · intro hd
        exact absurd (hgbres.symm.trans hd) (by decide)
    · refine reimport_same _ cols ((WF_update_turn_result gb tb .Winner).2 hgbWF) ?_ ?_ ?_ ?_ ?_
      · rw [show ({ gb with data := { gb.data with turn := tb, result := .Winner } } : ConnectFour).options = g.options from hgbopt]
        exact hw
      · rw [show ({ gb with data := { gb.data with turn := tb, result := .Winner } } : ConnectFour).options = g.options from hgbopt]
        exact hh
      · rw [show ({ gb with data := { gb.data with turn := tb, result := .Winner } } : ConnectFour).options = g.options from hgbopt]
        exact hcstacks'
      · intro x y hx hy
        rw [cellAt_update_turn_result]
        exact hBgb x y hx hy
      · intro hd
        exact absurd (show GameResult.Winner = .Draw from hd) (by decide)
    · refine reimport_same _ cols ((WF_update_result gb .Draw).2 hgbWF) ?_ ?_ ?_ ?_ ?_
      · rw [show ({ gb with data := { gb.data with result := .Draw } } : ConnectFour).options = g.options from hgbopt]
        exact hw
      · rw [show ({ gb with data := { gb.data with result := .Draw } } : ConnectFour).options = g.options from hgbopt]
        exact hh
      · rw [show ({ gb with data := { gb.data with result := .Draw } } : ConnectFour).options = g.options from hgbopt]
        exact hcstacks'
      · intro x y hx hy
        rw [cellAt_update_result]
        exact hBgb x y hx hy
      · intro hd
        exact hgbturn

/-! ### Claim C9 -/

/-- C9: `is_legal_move` is side-effect-free — for every player and column
and every game state the returned state is the received state, whether the
check succeeds or fails. -/
theorem c9_is_legal_move_pure (g : ConnectFour) (player mov : Nat) :
    (g.is_legal_move player mov).1 = g := rfl

/-! ### Claim C5 -/

/-- C5: `is_legal_move` errors exactly when the column does not exist, the
game is over, the player is not the side to move, or the column's top cell
is occupied; and every error it returns is of kind `InvalidInput`. -/
theorem c5_is_legal_move_conditions (g : ConnectFour) (player mov : Nat)
    (hp : player = 1 ∨ player = 2) :
    ((g.is_legal_move player mov).2 ≠ .ok () ↔
      (mov ≥ g.options.width ∨ g.data.result.is_over = true ∨
        g.data.turn ≠ player_from_id player ∨
        g.cellAt (mov, g.options.height - 1) ≠ .Empty)) ∧
    (∀ e, (g.is_legal_move player mov).2 = .error e → e = .InvalidInput) := by
  constructor
  · unfold ConnectFour.is_legal_move
    dsimp only
    split_ifs with h1 h2 h3 h4 <;> simp [*]
  · intro e he
    cases e with
    | InvalidInput => rfl
    | InvalidOptions =>
      exfalso
      unfold ConnectFour.is_legal_move at he
      dsimp only at he
      split_ifs at he <;> simp at he

/-- Witness for C5 at a concrete game and move. -/
theorem c5_is_legal_move_conditions_witness :
    (1 = 1 ∨ 1 = 2) ∧
    ((((({ options := GameOptions.default, data := GameData.new GameOptions.default } : ConnectFour).is_legal_move 1 0).2 ≠ .ok ()) ↔
      (0 ≥ GameOptions.default.width ∨
        ({ options := GameOptions.default, data := GameData.new GameOptions.default } : ConnectFour).data.result.is_over = true ∨
        ({ options := GameOptions.default, data := GameData.new GameOptions.default } : ConnectFour).data.turn ≠ player_from_id 1 ∨
        ({ options := GameOptions.default, data := GameData.new GameOptions.default } : ConnectFour).cellAt (0, GameOptions.default.height - 1) ≠ .Empty)) ∧
    (∀ e, ((({ options := GameOptions.default, data := GameData.new GameOptions.default } : ConnectFour).is_legal_move 1 0).2 = .error e → e = .InvalidInput))) :=
  ⟨Or.inl rfl,
    c5_is_legal_move_conditions
      { options := GameOptions.default, data := GameData.new GameOptions.default } 1 0
      (Or.inl rfl)⟩

/-! ### Claim C7 -/

/-- C7: for every direction and every in-bounds position, `walk` returns the
position shifted one step in that direction exactly when the shifted cell is
inside `[0,width) × [0,height)` (checked subtraction: stepping a zero
coordinate below zero is out of bounds, not wraparound), and `none`
otherwise. -/
theorem c7_walk_bounds (d : Direction) (x y w h : Nat) (hx : x < w) (hy : y < h) :
    d.walk (x, y) w h = specWalk d (x, y) w h := by
  cases d <;>
    simp only [Direction.walk, specWalk, dirDelta] <;>
    split_ifs <;>
    first
      | rfl
      | (exfalso; omega)
      | (simp only [Option.some.injEq, Prod.mk.injEq]; constructor <;> omega)

/-- Witness for C7 at a concrete direction and position. -/
theorem c7_walk_bounds_witness :
    Direction.S.walk (0, 0) 7 6 = specWalk .S (0, 0) 7 6 :=
  c7_walk_bounds .S 0 0 7 6 (by decide) (by decide)

/-! ### Claim C8 -/

/-- C8: the `BitVec` invariant — every storage bit at position `≥ length` is
zero — holds after `new` and is preserved by `set` at an in-range index, by
`reset`, and by `copy_from_bitvec` from a vector of equal length satisfying
the invariant. -/
theorem c8_bitvec_invariant :
    (∀ n, (BVec.new n).Inv) ∧
    (∀ (v : BVec) (i : Nat) (b : Bool), v.Inv → i < v.length → (v.set i b).Inv) ∧
    (∀ v : BVec, v.reset.Inv) ∧
    (∀ v other : BVec, other.Inv → v.length = other.length →
      (v.copyFromBitvec other).Inv) := by
  refine ⟨?_, ?_, ?_, ?_⟩
  · intro n j hj
    exact BVec.get_new n j
  · intro v i b hInv hi j hj
    rw [BVec.length_set] at hj
    rw [BVec.get_set_ne v i j b (by omega)]
    exact hInv j hj
  · intro v j hj
    exact BVec.get_reset v j
  · intro v o hInv hlen j hj
    have hj2 : v.length ≤ j := hj
    have hget : BVec.get (v.copyFromBitvec o) j = BVec.get o j := rfl
    rw [hget]
    exact hInv j (by omega)

/-- Witness for C8 at concrete vectors. -/
theorem c8_bitvec_invariant_witness :
    ((BVec.new 10).set 3 true).Inv ∧ (BVec.new 10).reset.Inv ∧
      ((BVec.new 10).copyFromBitvec (BVec.new 10)).Inv :=
  ⟨c8_bitvec_invariant.2.1 (BVec.new 10) 3 true (c8_bitvec_invariant.1 10) (by decide),
    c8_bitvec_invariant.2.2.1 (BVec.new 10),
    c8_bitvec_invariant.2.2.2 (BVec.new 10) (BVec.new 10) (c8_bitvec_invariant.1 10) rfl⟩

/-! ### Claim C10 -/

theorem importLoop_no_hash (cs : List Char) : ∀ (g : ConnectFour) (pos : Pos),
    '#' ∉ cs →
    (importLoop g pos cs).2 = .error .InvalidInput ∨ (importLoop g pos cs).2 = .ok [] := by
  induction cs with
  | nil =>
    intro g pos h
    right
    rfl
  | cons c rest ih =>
    intro g pos h
    have hc : c ≠ '#' := fun hh => h (by rw [hh]; exact List.mem_cons_self _ _)
    have hrest : '#' ∉ rest := fun hh => h (List.mem_cons_of_mem _ hh)
    unfold importLoop
    rw [if_neg hc]
    by_cases h2 : c = '/'
    · rw [if_pos h2]
      by_cases h3 : pos.1 + 1 ≥ g.options.width
      · rw [if_pos h3]
        left
        rfl
      · rw [if_neg h3]
        exact ih g (pos.1 + 1, 0) hrest
    · rw [if_neg h2]
      by_cases h4 : pos.2 ≥ g.options.height
      · rw [if_pos h4]
        left
        rfl
      · rw [if_neg h4]
        cases hd : decodeStone c with
        | none =>
          left
          rfl
        | some st => exact ih (g.set pos st) (pos.1, pos.2 + 1) hrest

/-- C10: a state text without a `#` character is always rejected with
`InvalidInput`, even when its body is well-formed — the trailer is
mandatory. -/
theorem c10_missing_hash_rejected (g : ConnectFour) (t : List Char) (h : '#' ∉ t) :
    (g.import_state (some t)).2 = .error .InvalidInput := by
  rw [import_state_some]
  have hts : '#' ∉ trimStartC t := fun hm => h ((List.dropWhile_sublist _).mem hm)
  rcases hres : importLoop { g with data := g.data.reset } (0, 0) (trimStartC t) with ⟨gb, r⟩
  have hnh := importLoop_no_hash (trimStartC t) { g with data := g.data.reset } (0, 0) hts
  rw [hres] at hnh
  dsimp only at hnh
  cases r with
  | error e =>
    rcases hnh with hh | hh
    · dsimp only
      rw [show e = ErrorCode.InvalidInput from (by simpa using hh)]
    · simp at hh
  | ok rest =>
    rcases hnh with hh | hh
    · simp at hh
    · have hrest : rest = [] := by simpa using hh
      subst hrest
      dsimp only
      rw [trailerApply_error gb [] (by decide) (by decide) (by decide)]

/-- Witness for C10 at a concrete game and text. -/
theorem c10_missing_hash_rejected_witness :
    ((({ options := GameOptions.default, data := GameData.new GameOptions.default } : ConnectFour).import_state (some ("XO/O".toList))).2 = .error .InvalidInput) :=
  c10_missing_hash_rejected
    { options := GameOptions.default, data := GameData.new GameOptions.default }
    ("XO/O".toList) (by decide)

/-! ### Claim C1 -/

/-- C1 (code bug): importing `"XXX#x"` and letting player 1 move in
column 0 places the piece at `(0,3)`, completing a vertical run of 4
(`winAfter` holds for the placed piece), yet `make_move` records `Draw`,
because the draw check runs unconditionally after win detection and
overwrites the `Winner` result whenever the move also fills the top row.
The claim (and the spec) require `Winner` here. -/
theorem c1_make_move_draw_overwrites_win :
    (drawBugGame.import_state (some ("XXX#x".toList))).2 = .ok () ∧
    (drawBugGame.import_state (some ("XXX#x".toList))).1.free_cell 0 = 3 ∧
    ((drawBugGame.import_state (some ("XXX#x".toList))).1.set (0, 3) .X).winAfter (0, 3) .X
      = true ∧
    ((drawBugGame.import_state (some ("XXX#x".toList))).1.make_move 1 0).data.result
      = .Draw := by
  decide

/-! ### Claim C2 -/

/-- Counterexample to C2: a failed `import_state` does not leave the prior
observable state untouched. Importing `"X#x"` puts an `X` at `(0,0)`;
the subsequent `import_state "Z#x"` fails with `InvalidInput`, but the cell
has been cleared by the reset that `import_state` performs first. -/
theorem c2_import_error_destroys_state :
    (tinyGame.import_state (some ("X#x".toList))).2 = .ok () ∧
    (tinyGame.import_state (some ("X#x".toList))).1.cellAt (0, 0) = .X ∧
    ((tinyGame.import_state (some ("X#x".toList))).1.import_state (some ("Z#x".toList))).2
      = .error .InvalidInput ∧
    ((tinyGame.import_state (some ("X#x".toList))).1.import_state (some ("Z#x".toList))).1.cellAt (0, 0)
      = .Empty := by
  decide

/-- C2 (amended): a failed `is_legal_move` leaves the state untouched and a
failed construction produces no game, but `import_state` discards the prior
state up front: its outcome (success or failure, and the resulting state)
depends only on the options and the input text, never on the prior board,
turn, or result. -/
theorem c2_error_recovery_amended :
    (∀ (g : ConnectFour) (player mov : Nat), (g.is_legal_move player mov).1 = g) ∧
    (∀ (o : List Char) (s : Option (List Char)) (e : ErrorCode),
      GameOptions.new o = .error e → ConnectFour.create (some o) s = .error e) ∧
    (∀ (g g' : ConnectFour) (t : List Char), g.options = g'.options → g.WF → g'.WF →
      g.import_state (some t) = g'.import_state (some t)) := by
  refine ⟨fun g p m => rfl, ?_, ?_⟩
  · intro o s e he
    unfold ConnectFour.create
    dsimp only
    rw [he]
    rfl
  · intro g g' t ho hWF hWF'
    have hL : g.data.board.length = g'.data.board.length := by
      rw [hWF.1, hWF'.1, ho]
    have hn : g.data.board.data.length = g'.data.board.data.length := by
      rw [hWF.2, hWF'.2, hL]
    have hconst : (fun (_ : Nat) => (0 : Nat)) = Function.const Nat (0 : Nat) := rfl
    have h1 : g.data.board.reset = g'.data.board.reset := by
      unfold BVec.reset
      rw [hconst, List.map_const, List.map_const, hn, hL]
    have hEq : ({ g with data := g.data.reset } : ConnectFour)
        = { g' with data := g'.data.reset } := by
      show ConnectFour.mk g.options (GameData.mk g.data.board.reset false .Ongoing)
        = ConnectFour.mk g'.options (GameData.mk g'.data.board.reset false .Ongoing)
      rw [ho, h1]
    rw [import_state_some, import_state_some, hEq]

/-- Witness for the amended C2 at concrete games differing only in their
(discarded) prior data. -/
theorem c2_error_recovery_amended_witness :
    ((tinyGame.is_legal_move 1 0).1 = tinyGame) ∧
    (ConnectFour.create (some ("".toList)) none = .error .InvalidInput) ∧
    (({ options := { width := 1, height := 1, length := 1 }, data := { board := { data := [1], length := 2 }, turn := true, result := .Draw } } : ConnectFour).import_state (some ("Z#x".toList)) = tinyGame.import_state (some ("Z#x".toList))) :=
  ⟨c2_error_recovery_amended.1 tinyGame 1 0,
    c2_error_recovery_amended.2.1 ("".toList) none .InvalidInput (by decide),
    c2_error_recovery_amended.2.2 _ tinyGame ("Z#x".toList) rfl ⟨rfl, rfl⟩ ⟨rfl, rfl⟩⟩

/-! ### Claim C4 witness -/

/-- Witness for C4 at a concrete accepted state text. -/
theorem c4_state_roundtrip_witness :
    ∃ g2, (sample22.import_state (some ("XO/O#x".toList))).1.import_state
        (some (sample22.import_state (some ("XO/O#x".toList))).1.export_state) = (g2, .ok ()) ∧
      g2.obs = (sample22.import_state (some ("XO/O#x".toList))).1.obs :=
  c4_state_roundtrip sample22 (sample22.import_state (some ("XO/O#x".toList))).1
    ("XO/O#x".toList) ⟨rfl, rfl⟩ (by decide) (by decide) (by decide)

/-! ### Claim C6 -/

theorem char_eq_of_toNat_eq {a b : Char} (h : a.toNat = b.toNat) : a = b :=
  Char.ext (UInt32.toNat.inj h)

theorem eqICS_singleton (p : List Char) (c : Char) (h : eqIgnoreAsciiCaseS p [c] = true) :
    ∃ a, p = [a] ∧ lowerN a.toNat = lowerN c.toNat := by
  have h' : p.map (fun x => lowerN x.toNat) = [c].map (fun x => lowerN x.toNat) :=
    of_decide_eq_true h
  cases p with
  | nil => simp at h'
  | cons a tail =>
    cases tail with
    | nil =>
      refine ⟨a, rfl, ?_⟩
      simpa using h'
    | cons b tail2 => simp at h'

theorem lowerN_eq_120 (n : Nat) (h : lowerN n = 120) : n = 120 ∨ n = 88 := by
  unfold lowerN at h
  split_ifs at h <;> omega

theorem lowerN_eq_111 (n : Nat) (h : lowerN n = 111) : n = 111 ∨ n = 79 := by
  unfold lowerN at h
  split_ifs at h <;> omega

theorem eqICS_X_cases (p : List Char) (h : eqIgnoreAsciiCaseS p ['X'] = true) :
    p = ['x'] ∨ p = ['X'] := by
  obtain ⟨a, rfl, ha⟩ := eqICS_singleton p 'X' h
  have hx : lowerN (Char.toNat 'X') = 120 := by decide
  rw [hx] at ha
  rcases lowerN_eq_120 _ ha with h1 | h1
  · left
    rw [char_eq_of_toNat_eq (a := a) (b := 'x') (by rw [h1]; decide)]
  · right
    rw [char_eq_of_toNat_eq (a := a) (b := 'X') (by rw [h1]; decide)]

theorem eqICS_O_cases (p : List Char) (h : eqIgnoreAsciiCaseS p ['O'] = true) :
    p = ['o'] ∨ p = ['O'] := by
  obtain ⟨a, rfl, ha⟩ := eqICS_singleton p 'O' h
  have hx : lowerN (Char.toNat 'O') = 111 := by decide
  rw [hx] at ha
  rcases lowerN_eq_111 _ ha with h1 | h1
  · left
    rw [char_eq_of_toNat_eq (a := a) (b := 'o') (by rw [h1]; decide)]
  · right
    rw [char_eq_of_toNat_eq (a := a) (b := 'O') (by rw [h1]; decide)]

/-- C6: when the body before `#` of a state text is well-formed, the trimmed
trailer decides the outcome: `x`/`o` set the side to move with the game
ongoing, `X`/`O` additionally record a win, `-` records a draw, and every
other trailer is rejected with `InvalidInput`. -/
theorem c6_trailer_interpretation (g gb : ConnectFour) (t rest : List Char)
    (hloop : importLoop { g with data := g.data.reset } (0, 0) (trimStartC t)
      = (gb, .ok rest)) :
    (trimC rest = ['x'] → (g.import_state (some t)).2 = .ok () ∧
      (g.import_state (some t)).1.data.turn = false ∧
      (g.import_state (some t)).1.data.result = .Ongoing) ∧
    (trimC rest = ['o'] → (g.import_state (some t)).2 = .ok () ∧
      (g.import_state (some t)).1.data.turn = true ∧
      (g.import_state (some t)).1.data.result = .Ongoing) ∧
    (trimC rest = ['X'] → (g.import_state (some t)).2 = .ok () ∧
      (g.import_state (some t)).1.data.turn = false ∧
      (g.import_state (some t)).1.data.result = .Winner) ∧
    (trimC rest = ['O'] → (g.import_state (some t)).2 = .ok () ∧
      (g.import_state (some t)).1.data.turn = true ∧
      (g.import_state (some t)).1.data.result = .Winner) ∧
    (trimC rest = ['-'] → (g.import_state (some t)).2 = .ok () ∧
      (g.import_state (some t)).1.data.result = .Draw) ∧
    (trimC rest ∉ ([['x'], ['o'], ['X'], ['O'], ['-']] : List (List Char)) →
      (g.import_state (some t)).2 = .error .InvalidInput) := by
  have himp : g.import_state (some t) = trailerApply gb rest := by
    rw [import_state_some, hloop]
  have hpres := importLoop_pres (trimStartC t) { g with data := g.data.reset } (0, 0)
  rw [hloop] at hpres
  dsimp only at hpres
  have hres : gb.data.result = .Ongoing := hpres.2.2.1
  refine ⟨?_, ?_, ?_, ?_, ?_, ?_⟩
  · intro he
    rw [himp]
    unfold trailerApply
    dsimp only
    rw [he, if_pos (by decide)]
    dsimp only
    rw [if_neg (by decide)]
    exact ⟨rfl, rfl, hres⟩
  · intro he
    rw [himp]
    unfold trailerApply
    dsimp only
    rw [he, if_neg (by decide), if_pos (by decide)]
    dsimp only
    rw [if_neg (by decide)]
    exact ⟨rfl, rfl, hres⟩
  · intro he
    rw [himp]
    unfold trailerApply
    dsimp only
    rw [he, if_pos (by decide)]
    dsimp only
    rw [if_pos (by decide)]
    exact ⟨rfl, rfl, rfl⟩
  · intro he
    rw [himp]
    unfold trailerApply
    dsimp only
    rw [he, if_neg (by decide), if_pos (by decide)]
    dsimp only
    rw [if_pos (by decide)]
    exact ⟨rfl, rfl, rfl⟩
  · intro he
    rw [himp]
    unfold trailerApply
    dsimp only
    rw [he, if_neg (by decide), if_neg (by decide), if_pos rfl]
    dsimp only
    rw [if_neg (by decide)]
    exact ⟨rfl, rfl⟩
  · intro hnot
    have hX : ¬ eqIgnoreAsciiCaseS (trimC rest) ['X'] = true := by
      intro hh
      rcases eqICS_X_cases _ hh with h1 | h1 <;> exact hnot (by rw [h1]; simp)
    have hO : ¬ eqIgnoreAsciiCaseS (trimC rest) ['O'] = true := by
      intro hh
      rcases eqICS_O_cases _ hh with h1 | h1 <;> exact hnot (by rw [h1]; simp)
    have hD : trimC rest ≠ ['-'] := fun hh => hnot (by rw [hh]; simp)
    rw [himp, trailerApply_error gb rest hX hO hD]

/-- Witness for C6 at a concrete game and state text. -/
theorem c6_trailer_interpretation_witness :
    (trimC ['X'] = ['x'] → ((({ options := { width := 1, height := 1, length := 1 }, data := GameData.new { width := 1, height := 1, length := 1 } } : ConnectFour).import_state (some ("X#X".toList))).2 = .ok ()) ∧
      ((({ options := { width := 1, height := 1, length := 1 }, data := GameData.new { width := 1, height := 1, length := 1 } } : ConnectFour).import_state (some ("X#X".toList))).1.data.turn = false) ∧
      ((({ options := { width := 1, height := 1, length := 1 }, data := GameData.new { width := 1, height := 1, length := 1 } } : ConnectFour).import_state (some ("X#X".toList))).1.data.result = .Ongoing)) ∧
    (trimC ['X'] = ['o'] → ((({ options := { width := 1, height := 1, length := 1 }, data := GameData.new { width := 1, height := 1, length := 1 } } : ConnectFour).import_state (some ("X#X".toList))).2 = .ok ()) ∧
      ((({ options := { width := 1, height := 1, length := 1 }, data := GameData.new { width := 1, height := 1, length := 1 } } : ConnectFour).import_state (some ("X#X".toList))).1.data.turn = true) ∧
      ((({ options := { width := 1, height := 1, length := 1 }, data := GameData.new { width := 1, height := 1, length := 1 } } : ConnectFour).import_state (some ("X#X".toList))).1.data.result = .Ongoing)) ∧
    (trimC ['X'] = ['X'] → ((({ options := { width := 1, height := 1, length := 1 }, data := GameData.new { width := 1, height := 1, length := 1 } } : ConnectFour).import_state (some ("X#X".toList))).2 = .ok ()) ∧
      ((({ options := { width := 1, height := 1, length := 1 }, data := GameData.new { width := 1, height := 1, length := 1 } } : ConnectFour).import_state (some ("X#X".toList))).1.data.turn = false) ∧
      ((({ options := { width := 1, height := 1, length := 1 }, data := GameData.new { width := 1, height := 1, length := 1 } } : ConnectFour).import_state (some ("X#X".toList))).1.data.result = .Winner)) ∧
    (trimC ['X'] = ['O'] → ((({ options := { width := 1, height := 1, length := 1 }, data := GameData.new { width := 1, height := 1, length := 1 } } : ConnectFour).import_state (some ("X#X".toList))).2 = .ok ()) ∧
      ((({ options := { width := 1, height := 1, length := 1 }, data := GameData.new { width := 1, height := 1, length := 1 } } : ConnectFour).import_state (some ("X#X".toList))).1.data.turn = true) ∧
      ((({ options := { width := 1, height := 1, length := 1 }, data := GameData.new { width := 1, height := 1, length := 1 } } : ConnectFour).import_state (some ("X#X".toList))).1.data.result = .Winner)) ∧
    (trimC ['X'] = ['-'] → ((({ options := { width := 1, height := 1, length := 1 }, data := GameData.new { width := 1, height := 1, length := 1 } } : ConnectFour).import_state (some ("X#X".toList))).2 = .ok ()) ∧
      ((({ options := { width := 1, height := 1, length := 1 }, data := GameData.new { width := 1, height := 1, length := 1 } } : ConnectFour).import_state (some ("X#X".toList))).1.data.result = .Draw)) ∧
    (trimC ['X'] ∉ ([['x'], ['o'], ['X'], ['O'], ['-']] : List (List Char)) →
      ((({ options := { width := 1, height := 1, length := 1 }, data := GameData.new { width := 1, height := 1, length := 1 } } : ConnectFour).import_state (some ("X#X".toList))).2 = .error .InvalidInput)) :=
  c6_trailer_interpretation
    { options := { width := 1, height := 1, length := 1 }, data := GameData.new { width := 1, height := 1, length := 1 } }
    ((importLoop { options := { width := 1, height := 1, length := 1 }, data := ({ options := { width := 1, height := 1, length := 1 }, data := GameData.new { width := 1, height := 1, length := 1 } } : ConnectFour).data.reset } (0, 0) (trimStartC ("X#X".toList))).1)
    ("X#X".toList) ['X'] (by decide)

/-! ### Claim C3 -/

theorem digitC_isDigit (d : Nat) (h : d < 10) : (digitC d).isDigit = true := by
  interval_cases d <;> decide

theorem digitC_toNat (d : Nat) (h : d < 10) : (digitC d).toNat = 48 + d := by
  interval_cases d <;> decide

theorem digitC_not_ws (d : Nat) (h : d < 10) : ¬ rustIsWhitespace (digitC d) = true := by
  interval_cases d <;> decide

theorem digitC_ne_plus (d : Nat) (h : d < 10) : digitC d ≠ '+' := by
  interval_cases d <;> decide

theorem natToChars_ne_nil (n : Nat) : natToChars n ≠ [] := by
  unfold natToChars
  split_ifs <;> simp

theorem natToChars_mem (n : Nat) (hn : n < 1000) (c : Char) (hc : c ∈ natToChars n) :
    ∃ d, d < 10 ∧ c = digitC d := by
  unfold natToChars at hc
  split_ifs at hc with h1 h2
  · simp at hc
    exact ⟨n, h1, hc⟩
  · simp at hc
    rcases hc with rfl | rfl
    · exact ⟨n / 10, by omega, rfl⟩
    · exact ⟨n % 10, by omega, rfl⟩
  · simp at hc
    rcases hc with rfl | rfl | rfl
    · exact ⟨n / 100, by omega, rfl⟩
    · exact ⟨n / 10 % 10, by omega, rfl⟩
    · exact ⟨n % 10, by omega, rfl⟩

theorem natToChars_all_digits (n : Nat) (hn : n < 1000) :
    ∀ c ∈ natToChars n, c.isDigit = true := by
  intro c hc
  obtain ⟨d, hd, rfl⟩ := natToChars_mem n hn c hc
  exact digitC_isDigit d hd

theorem toDec_natToChars (n : Nat) (hn : n < 1000) : toDec (natToChars n) = n := by
  unfold natToChars
  split_ifs with h1 h2
  · unfold toDec
    simp only [List.foldl]
    rw [digitC_toNat n h1]
    omega
  · unfold toDec
    simp only [List.foldl]
    rw [digitC_toNat (n / 10) (by omega), digitC_toNat (n % 10) (by omega)]
    omega
  · unfold toDec
    simp only [List.foldl]
    rw [digitC_toNat (n / 100) (by omega), digitC_toNat (n / 10 % 10) (by omega),
      digitC_toNat (n % 10) (by omega)]
    omega

theorem parseU8_natToChars (n : Nat) (h : n < 256) : parseU8 (natToChars n) = some n := by
  have hplus : ¬ (natToChars n).head? = some '+' := by
    cases hnc : natToChars n with
    | nil => exact absurd hnc (natToChars_ne_nil n)
    | cons c tl =>
      obtain ⟨d, hd, rfl⟩ := natToChars_mem n (by omega) c (by rw [hnc]; simp)
      simp only [List.head?]
      intro hcc
      exact digitC_ne_plus d hd (by simpa using hcc)
  unfold parseU8
  dsimp only
  rw [if_neg hplus, if_neg (by simp [natToChars_ne_nil n]),
    if_pos (List.all_eq_true.2 (natToChars_all_digits n (by omega))),
    toDec_natToChars n (by omega), if_pos h]

theorem splitNonDigit_ne_nil (cs : List Char) : splitNonDigit cs ≠ [] := by
  induction cs with
  | nil => simp [splitNonDigit]
  | cons c rest ih =>
    unfold splitNonDigit
    by_cases h : c.isDigit
    · rw [if_pos h]
      cases hs : splitNonDigit rest with
      | nil => simp
      | cons t ts => simp
    · rw [if_neg h]
      simp

theorem splitNonDigit_digitsFirst (d : List Char) : ∀ (rest : List Char),
    (∀ c ∈ d, c.isDigit = true) →
    splitNonDigit (d ++ rest) =
      (match splitNonDigit rest with
        | t :: ts => (d ++ t) :: ts
        | [] => [d]) := by
  induction d with
  | nil =>
    intro rest h
    cases hs : splitNonDigit rest with
    | nil => exact absurd hs (splitNonDigit_ne_nil rest)
    | cons t ts => simp [hs]
  | cons c d' ih =>
    intro rest h
    have hc : c.isDigit = true := h c (by simp)
    rw [List.cons_append]
    conv_lhs => unfold splitNonDigit
    rw [if_pos hc, ih rest (fun x hx => h x (by simp [hx]))]
    cases hs : splitNonDigit rest with
    | nil => exact absurd hs (splitNonDigit_ne_nil rest)
    | cons t ts => simp

theorem splitNonDigit_sep (c : Char) (rest : List Char) (h : ¬ c.isDigit = true) :
    splitNonDigit (c :: rest) = [] :: splitNonDigit rest := by
  conv_lhs => unfold splitNonDigit
  rw [if_neg h]

theorem trimC_head_last (a b : Char) (mid : List Char)
    (ha : ¬ rustIsWhitespace a = true) (hb : ¬ rustIsWhitespace b = true) :
    trimC (a :: (mid ++ [b])) = a :: (mid ++ [b]) := by
  unfold trimC
  rw [List.dropWhile_cons, if_neg ha]
  have hrev : (a :: (mid ++ [b])).reverse = b :: (mid.reverse ++ [a]) := by simp
  rw [hrev, List.dropWhile_cons, if_neg hb, ← hrev, List.reverse_reverse]

/-- Counterexample to C3: the numbers 7, 6, 4 are valid parameters, `x` is
not a digit, but separating the first two numbers by the two-character run
`xx` makes `GameOptions::new` fail with `InvalidInput` (the empty piece
between the two separators fails to parse) instead of succeeding as the
claim states. -/
theorem c3_separator_run_rejected :
    (¬ ('x' : Char).isDigit = true) ∧ 1 ≤ 7 ∧ 7 ≤ 255 ∧ 1 ≤ 6 ∧ 6 ≤ 255 ∧ 1 ≤ 4 ∧
    4 ≤ 255 ∧ 4 ≤ max 7 6 ∧
    GameOptions.new (natToChars 7 ++ 'x' :: 'x' :: (natToChars 6 ++ '@' :: natToChars 4))
      = .error .InvalidInput := by
  decide

/-- C3 (amended): an options string of three decimal `u8` numbers `W`, `H`,
`L` (each ≥ 1, `L ≤ max(W, H)`) separated by single non-digit characters is
accepted by `GameOptions::new` with exactly those values, and
`export_options` then prints the space-separated `"W H L"`. (Separator runs
longer than one character are rejected, see the counterexample.) -/
theorem c3_options_roundtrip_amended (W H L : Nat) (c1 c2 : Char)
    (hW1 : 1 ≤ W) (hW2 : W ≤ 255) (hH1 : 1 ≤ H) (hH2 : H ≤ 255)
    (hL1 : 1 ≤ L) (hL2 : L ≤ 255) (hmax : L ≤ max W H)
    (hc1 : ¬ c1.isDigit = true) (hc2 : ¬ c2.isDigit = true) :
    GameOptions.new (natToChars W ++ c1 :: (natToChars H ++ c2 :: natToChars L))
      = .ok { width := W, height := H, length := L } ∧
    ConnectFour.export_options { options := { width := W, height := H, length := L }, data := GameData.new { width := W, height := H, length := L } } = natToChars W ++ ' ' :: (natToChars H ++ ' ' :: natToChars L) := by
  refine ⟨?_, rfl⟩
  have htrim : trimC (natToChars W ++ c1 :: (natToChars H ++ c2 :: natToChars L))
      = natToChars W ++ c1 :: (natToChars H ++ c2 :: natToChars L) := by
    cases hW : natToChars W with
    | nil => exact absurd hW (natToChars_ne_nil W)
    | cons a tlW =>
      rcases (natToChars L).eq_nil_or_concat with hnil | ⟨initL, b, hL⟩
      · exact absurd hnil (natToChars_ne_nil L)
      · have hform : a :: tlW ++ c1 :: (natToChars H ++ c2 :: natToChars L)
            = a :: ((tlW ++ c1 :: (natToChars H ++ c2 :: initL)) ++ [b]) := by
          rw [hL]
          simp
        rw [hform]
        apply trimC_head_last
        · have hamem : a ∈ natToChars W := by rw [hW]; simp
          obtain ⟨d, hd, rfl⟩ := natToChars_mem W (by omega) a hamem
          exact digitC_not_ws d hd
        · have hbmem : b ∈ natToChars L := by rw [hL]; simp
          obtain ⟨d, hd, rfl⟩ := natToChars_mem L (by omega) b hbmem
          exact digitC_not_ws d hd
  have hLsplit : splitNonDigit (natToChars L) = [natToChars L] := by
    have hx := splitNonDigit_digitsFirst (natToChars L) [] (natToChars_all_digits L (by omega))
    rw [List.append_nil] at hx
    rw [hx]
    simp [splitNonDigit]
  have hsplit : splitNonDigit (natToChars W ++ c1 :: (natToChars H ++ c2 :: natToChars L))
      = [natToChars W, natToChars H, natToChars L] := by
    rw [splitNonDigit_digitsFirst (natToChars W) _ (natToChars_all_digits W (by omega)),
      splitNonDigit_sep c1 _ hc1,
      splitNonDigit_digitsFirst (natToChars H) _ (natToChars_all_digits H (by omega)),
      splitNonDigit_sep c2 _ hc2, hLsplit]
    simp
  have hpW : parsePiece (some (natToChars W)) = .ok W := by
    unfold parsePiece
    dsimp only
    rw [parseU8_natToChars W (by omega)]
  have hpH : parsePiece (some (natToChars H)) = .ok H := by
    unfold parsePiece
    dsimp only
    rw [parseU8_natToChars H (by omega)]
  have hpL : parsePiece (some (natToChars L)) = .ok L := by
    unfold parsePiece
    dsimp only
    rw [parseU8_natToChars L (by omega)]
  unfold GameOptions.new
  dsimp only
  rw [htrim, hsplit]
  simp only [List.get?]
  rw [hpW]
  dsimp only
  rw [hpH]
  dsimp only
  rw [hpL]
  dsimp only
  rw [if_neg (by simp), if_neg (by omega), if_neg (by omega)]

/-- Witness for the amended C3 at the classic options. -/
theorem c3_options_roundtrip_amended_witness :
    (GameOptions.new (natToChars 7 ++ 'x' :: (natToChars 6 ++ '@' :: natToChars 4))
      = .ok { width := 7, height := 6, length := 4 } ∧
    ConnectFour.export_options { options := { width := 7, height := 6, length := 4 }, data := GameData.new { width := 7, height := 6, length := 4 } } = natToChars 7 ++ ' ' :: (natToChars 6 ++ ' ' :: natToChars 4)) :=
  c3_options_roundtrip_amended 7 6 4 'x' '@' (by decide) (by decide) (by decide) (by decide)
    (by decide) (by decide) (by decide) (by decide) (by decide)
